import Mathlib

/-
Verification of the LinkedIn scraper backend (src/app.py) against its
natural-language specification.

The development shallowly embeds the parts of src/app.py that the claims
are about:

 * the outbound dispatcher fetch_from_rapidapi (retry loop, backoff,
   error taxonomy), modelled as a pure function from a stubbed upstream
   (a map from attempt index to response) to an event trace plus outcome;
 * the rate gate rate_limit, modelled over a deterministic simulated
   rational-valued clock (sleeping advances the clock by exactly the
   slept amount, as in a property test with a fake clock);
 * the key resolver (the key_to_use computation);
 * the comment analytics aggregation of the analytics route;
 * clean_linkedin_url together with the relevant portion of the CPython
   standard library functions urlparse and urlunparse that it composes.
-/

/- ===================== JSON values and truthiness ===================== -/

/-- Decoded JSON document, the result of res.json() in the source. Numbers
are modelled as integers, which covers every value the claims touch. -/
inductive JVal where
  | null
  | jbool (b : Bool)
  | jnum (n : Int)
  | jstr (s : String)
  | jarr (elems : List JVal)
  | jobj (fields : List (String × JVal))

/-- Python truthiness test applied by the source as a falsiness check
(the line reading if not data). None, False, 0, the empty string, the
empty list and the empty object are falsy. -/
def jfalsy : JVal → Bool
  | .null => true
  | .jbool b => !b
  | .jnum n => n == 0
  | .jstr s => s == ""
  | .jarr elems => elems.isEmpty
  | .jobj fields => fields.isEmpty

/- ===================== Dispatcher model ===================== -/

/-- Model of HTTPException from fastapi: an HTTP status code and a human
readable detail string. -/
structure HTTPExc where
  status_code : Nat
  detail : String
deriving DecidableEq, Repr

/-- What one invocation of requests.get produces, as seen by the caller:
either an HTTP response (status code plus already-decoded JSON body), or a
network-level requests.exceptions.RequestException carrying a message. -/
inductive UpResp where
  | resp (status : Nat) (body : JVal)
  | netErr (msg : String)

/-- Observable events emitted by one dispatch, in order: a call of
rate_limit, an outbound requests.get (recording the attempt index and the
credential sent in the x-rapidapi-key header), or a time.sleep of the
given number of seconds (the backoff sleeps; the sleeps inside rate_limit
are accounted for in the rate gate model below). -/
inductive Ev where
  | rateGate
  | httpGet (attempt : Nat) (key : String)
  | sleep (secs : Nat)
deriving DecidableEq, Repr

/-- Terminal result of the dispatcher: a decoded payload returned to the
caller, or a raised HTTPException. -/
inductive Outcome where
  | success (data : JVal)
  | failure (e : HTTPExc)

/-- Abstract rendering of str(e) for the HTTPError that raise_for_status
raises on a status in the 400-599 range; only the fact that it is a string
derived from the status matters for the claims. -/
def httpErrorDetail (status : Nat) : String :=
  toString status ++ " upstream error"

/-- The retry loop of fetch_from_rapidapi (src/app.py lines 74-97),
iterating over range(3) = [0, 1, 2]. Each iteration runs rate_limit, then
requests.get, then the status handling of the source:

 * status 429: log, time.sleep(2 ^ attempt), continue;
 * any other error status (raise_for_status raises HTTPError for the
   400-599 range) and any network failure are both
   requests.exceptions.RequestException, handled by the except clause:
   swallowed unless attempt == 2, where HTTPException(500, str(e)) is
   raised;
 * otherwise decode; a falsy decoded body raises HTTPException(502),
   which the except clause does not catch; a truthy body is returned.

When the list of attempts is exhausted, HTTPException(429) is raised. -/
def fetchLoop (upstream : Nat → UpResp) (key : String) : List Nat → List Ev × Outcome
  | [] => ([], .failure ⟨429, "RapidAPI quota exceeded."⟩)
  | attempt :: rest =>
    match upstream attempt with
    | .resp status body =>
      if status = 429 then
        let wait := 2 ^ attempt
        let r := fetchLoop upstream key rest
        (.rateGate :: .httpGet attempt key :: .sleep wait :: r.1, r.2)
      else if 400 ≤ status ∧ status < 600 then
        if attempt = 2 then
          ([.rateGate, .httpGet attempt key], .failure ⟨500, httpErrorDetail status⟩)
        else
          let r := fetchLoop upstream key rest
          (.rateGate :: .httpGet attempt key :: r.1, r.2)
      else if jfalsy body then
        ([.rateGate, .httpGet attempt key], .failure ⟨502, "Empty response."⟩)
      else
        ([.rateGate, .httpGet attempt key], .success body)
    | .netErr msg =>
      if attempt = 2 then
        ([.rateGate, .httpGet attempt key], .failure ⟨500, msg⟩)
      else
        let r := fetchLoop upstream key rest
        (.rateGate :: .httpGet attempt key :: r.1, r.2)

/-- The upstream host constant of the source. -/
def RAPIDAPI_HOST : String :=
  "linkedin-scraper-api-real-time-fast-affordable.p.rapidapi.com"

/-- The credential resolution of fetch_from_rapidapi (line 64):
key_to_use = rapidapi_key or RAPIDAPI_KEY, with the Python or operator on
an optional string argument; None and the empty string fall back to the
process-wide default. -/
def resolveKey (rapidapi_key : Option String) (defaultKey : String) : String :=
  match rapidapi_key with
  | some k => if k = "" then defaultKey else k
  | none => defaultKey

/-- fetch_from_rapidapi (src/app.py lines 62-97) over a stubbed upstream.
The endpoint and params arguments shape the outbound request only; the
credential check precedes the loop, so a missing credential produces the
400 failure with an empty event trace (zero outbound calls). -/
def fetch_from_rapidapi (endpoint : String) (params : List (String × String))
    (rapidapi_key : Option String) (defaultKey : String)
    (upstream : Nat → UpResp) : List Ev × Outcome :=
  let _url := "https://" ++ RAPIDAPI_HOST ++ "/" ++ endpoint
  let _params := params
  let key_to_use := resolveKey rapidapi_key defaultKey
  if key_to_use = "" then ([], .failure ⟨400, "Missing RapidAPI key."⟩)
  else fetchLoop upstream key_to_use [0, 1, 2]

/-- Total seconds spent in backoff sleeps of a dispatch trace. -/
def totalSleep (evs : List Ev) : Nat :=
  (evs.map fun e => match e with | .sleep s => s | _ => 0).sum

/-- Number of outbound calls recorded in a dispatch trace. -/
def httpGetCount (evs : List Ev) : Nat :=
  evs.countP fun e => match e with | .httpGet _ _ => true | _ => false

/-- Helper for the gate-before-get trace invariant: walks the trace
carrying the previous event, requiring every httpGet to be immediately
preceded by a rateGate event. -/
def gbgFrom : Option Ev → List Ev → Prop
  | _, [] => True
  | prev, e :: rest =>
    (match e with
     | .httpGet _ _ => prev = some .rateGate
     | _ => True) ∧ gbgFrom (some e) rest

/-- Every outbound call in the trace is immediately preceded by a
rate gate invocation. -/
def gateBeforeGet (evs : List Ev) : Prop := gbgFrom none evs

/- ===================== Rate gate model ===================== -/

/-- Default minimum interval of rate_limit, 1.2 seconds as an exact
rational. -/
def min_interval : ℚ := 6 / 5

/-- rate_limit (src/app.py lines 44-53) under a deterministic simulated
clock. Invoked when the clock reads now with stored global last_call_time,
it computes elapsed = now - last_call_time; when elapsed < min_interval it
sleeps the shortfall, the simulated clock advancing by exactly the slept
amount; it then stores the current time.time() as the new last_call_time.
Returns (sleep duration, new last_call_time); the new last_call_time is
the dispatch timestamp of the outbound call issued right afterwards. -/
def rate_limit (minInterval : ℚ) (last_call_time : ℚ) (now : ℚ) : ℚ × ℚ :=
  let elapsed := now - last_call_time
  if elapsed < minInterval then
    let sleep_for := minInterval - elapsed
    (sleep_for, now + sleep_for)
  else
    (0, now)

/-- Successive values taken by the global last_call_time over a sequence
of rate gate invocations at the given clock readings; these are the
dispatch timestamps of the corresponding outbound calls. All routes share
this single state, so the sequence models calls from any mix of routes. -/
def gateTimes (minInterval : ℚ) (last0 : ℚ) : List ℚ → List ℚ
  | [] => []
  | now :: rest =>
    let t := (rate_limit minInterval last0 now).2
    t :: gateTimes minInterval t rest

/- ===================== Comment analytics model ===================== -/

/-- The author object of one upstream comment record; name models
c.get("author", default).get("name"), absent key giving none. -/
structure CAuthor where
  name : Option String
deriving DecidableEq, Repr

/-- The stats object of one upstream comment record. -/
structure CStats where
  total_reactions : Option Int
deriving DecidableEq, Repr

/-- One upstream comment record, with the two fields the aggregation
reads; a missing author or stats object is none. -/
structure CComment where
  author : Option CAuthor
  stats : Option CStats
deriving DecidableEq, Repr

/-- The authors list of comment_analytics (line 132): the author name of
each comment whose name is present and truthy (non-None and non-empty). -/
def commentAuthors (comments : List CComment) : List String :=
  comments.filterMap fun c =>
    match (c.author.getD ⟨none⟩).name with
    | some n => if n = "" then none else some n
    | none => none

/-- The reactions list of comment_analytics (line 133): the
total_reactions of every comment, defaulting to 0 when absent. -/
def commentReactions (comments : List CComment) : List Int :=
  comments.map fun c => (c.stats.getD ⟨none⟩).total_reactions.getD 0

/-- Distinct elements in order of first occurrence; the iteration order of
a Python Counter built from the list (dict insertion order). -/
def firstSeen : List String → List String
  | [] => []
  | a :: rest => a :: (firstSeen rest).filter (fun b => b ≠ a)

/-- Counter(authors) enumerated as (name, multiplicity) pairs in insertion
order, i.e. first-seen order of the distinct names. -/
def counterItems (authors : List String) : List (String × Nat) :=
  (firstSeen authors).map fun k => (k, authors.count k)

/-- Comparison used to model Counter.most_common: count descending, and
among equal counts the position of the name in the first-seen (insertion)
order, which is how the documented stable descending sort of most_common
breaks ties. -/
def mcRel (keys : List String) (p q : String × Nat) : Prop :=
  q.2 < p.2 ∨ (p.2 = q.2 ∧ keys.indexOf p.1 ≤ keys.indexOf q.1)

instance (keys : List String) : DecidableRel (mcRel keys) := fun p q => by
  unfold mcRel; infer_instance

/-- Counter(authors).most_common(n): the n distinct names of largest
multiplicity with their counts, sorted by count descending, ties in
first-seen order. -/
def most_common (n : Nat) (authors : List String) : List (String × Nat) :=
  ((counterItems authors).insertionSort (mcRel (firstSeen authors))).take n

/-- The summary object built by comment_analytics (lines 134-142). The
arithmetic mean is taken over the rationals; on the inputs of the spec the
Python float mean coincides with it. -/
structure AnalyticsSummary where
  total_comments : Nat
  unique_commenters : Nat
  average_reactions : ℚ
  top_commenters : List (String × Nat)
deriving DecidableEq, Repr

/-- Result of the analytics route body given the extracted comments list:
the no-comments error object, or the success summary. -/
inductive AnalyticsResult where
  | noComments
  | summary (s : AnalyticsSummary)
deriving DecidableEq, Repr

/-- comment_analytics (src/app.py lines 124-142) applied to the comments
list extracted from the upstream payload. -/
def comment_analytics (comments : List CComment) : AnalyticsResult :=
  if comments.isEmpty then .noComments
  else
    let authors := commentAuthors comments
    let reactions := commentReactions comments
    .summary
      { total_comments := comments.length
        unique_commenters := (firstSeen authors).length
        average_reactions :=
          if reactions.isEmpty then 0
          else (reactions.map fun i => (i : ℚ)).sum / (reactions.length : ℚ)
        top_commenters := most_common 5 authors }

/- ===================== URL normalizer model =====================

clean_linkedin_url (src/app.py lines 58-60) is
urlunparse(urlparse(url)._replace(query="")). The functions urlparse,
urlsplit, urlunparse and urlunsplit below follow the CPython 3.11
urllib.parse module, on lists of characters. Strings raise ValueError in
two places (the bracket checks on the netloc), so parsing lands in Except.
-/

/-- The three bytes removed everywhere by urlsplit
(the list named UNSAFE URL BYTES TO REMOVE). -/
def isUnsafeURLByte (c : Char) : Bool := c = '\t' || c = '\r' || c = '\n'

/-- The WHATWG C0-control-or-space class stripped from the front of the
url by urlsplit: code points 0 through 32. -/
def isC0OrSpace (c : Char) : Bool := c.toNat ≤ 32

def isAsciiUpper (c : Char) : Bool := 65 ≤ c.toNat && c.toNat ≤ 90

def isAsciiLower (c : Char) : Bool := 97 ≤ c.toNat && c.toNat ≤ 122

/-- The test applied to the first character before a scheme is split off:
url[0].isascii() and url[0].isalpha(), i.e. an ASCII letter. -/
def isAsciiAlpha (c : Char) : Bool := isAsciiUpper c || isAsciiLower c

def isAsciiDigit (c : Char) : Bool := 48 ≤ c.toNat && c.toNat ≤ 57

def isAsciiHexDigit (c : Char) : Bool :=
  isAsciiDigit c || (65 ≤ c.toNat && c.toNat ≤ 70) || (97 ≤ c.toNat && c.toNat ≤ 102)

/-- Membership in the scheme chars constant: ASCII letters, digits, plus,
minus, dot. -/
def isSchemeChar (c : Char) : Bool :=
  isAsciiAlpha c || isAsciiDigit c || c = '+' || c = '-' || c = '.'

/-- str.lower as applied to the scheme. The scheme has passed the
scheme-character test, so every character is ASCII, where str.lower is
plain ASCII lowercasing. -/
def lowerChar (c : Char) : Char :=
  if isAsciiUpper c then Char.ofNat (c.toNat + 32) else c

/-- Split a list at the first occurrence of a character: s.split(t, 1)
together with the containment test. Returns the part before the first t
and, when t occurs, the part after it. -/
def splitOnFirst (t : Char) : List Char → List Char × Option (List Char)
  | [] => ([], none)
  | c :: rest =>
    if c = t then ([], some rest)
    else
      let r := splitOnFirst t rest
      (c :: r.1, r.2)

/-- The characters at which the netloc ends inside splitnetloc. -/
def isNetlocDelim (c : Char) : Bool := c = '/' || c = '?' || c = '#'

/-- The five components produced by urlsplit. -/
structure SplitResult where
  scheme : List Char
  netloc : List Char
  path : List Char
  query : List Char
  fragment : List Char
deriving DecidableEq, Repr

/-- The scheme-detection step of urlsplit: i = url.find(non-colon prefix);
when i > 0, the first character is an ASCII letter and every character
before the colon is a scheme character, the lowercased prefix becomes the
scheme and the rest replaces the url; otherwise the url is untouched. -/
def splitScheme (url : List Char) : List Char × List Char :=
  match splitOnFirst ':' url with
  | (pre, some rest) =>
    match pre with
    | [] => ([], url)
    | c :: _ =>
      if isAsciiAlpha c && pre.all isSchemeChar then (pre.map lowerChar, rest)
      else ([], url)
  | (_, none) => ([], url)

/-- netloc.partition(lbracket)[2].partition(rbracket)[0]: the text between
the first opening bracket and the following closing bracket. -/
def bracketedHostOf (netloc : List Char) : List Char :=
  match splitOnFirst '[' netloc with
  | (_, some after) =>
    match splitOnFirst ']' after with
    | (pre, _) => pre
  | (_, none) => []

/-- Abstraction of the bracketed-host validation of CPython 3.11
urlsplit, which accepts a valid IPv6 address (optionally with a zone) or
an IPvFuture literal and raises ValueError otherwise. The model checks
the IPvFuture shape exactly and approximates the IPv6 check by the
character class plus the presence of a colon (which also rejects an IPv4
address in brackets, as the source does). The round-trip theorems only
use that this is a function of the netloc; no claim exercises a bracketed
host. -/
def bracketedHostOK (host : List Char) : Bool :=
  if host.head? = some 'v' then
    let hexs := (host.drop 1).takeWhile isAsciiHexDigit
    let rest := (host.drop 1).dropWhile isAsciiHexDigit
    !hexs.isEmpty && rest.head? = some '.' && !(rest.drop 1).isEmpty
  else
    !host.isEmpty &&
      host.all (fun c => isAsciiHexDigit c || c = ':' || c = '.' || c = '%') &&
      host.contains ':'

/-- The fragment and query splits of urlsplit, applied after any netloc
handling: the fragment is everything after the first hash sign, then the
query is everything after the first question mark of what is left. -/
def splitFragQuery (scheme netloc url : List Char) : SplitResult :=
  let fq :=
    match splitOnFirst '#' url with
    | (pre, some post) => (pre, post)
    | (_, none) => (url, [])
  let pq :=
    match splitOnFirst '?' fq.1 with
    | (pre, some post) => (pre, post)
    | (_, none) => (fq.1, [])
  ⟨scheme, netloc, pq.1, pq.2, fq.2⟩

/-- urlsplit of CPython 3.11 with allow_fragments left at True: lstrip the
C0-control-or-space class, remove tab, carriage return and newline
everywhere, split a scheme, split a netloc when the remainder starts with
two slashes (raising on mismatched brackets and on an invalid bracketed
host), then split fragment and query. The NFKC netloc check, which never
raises on an ASCII netloc, is not modelled. -/
def urlsplitE (url0 : List Char) : Except String SplitResult :=
  let url1 := url0.dropWhile isC0OrSpace
  let url2 := url1.filter (fun c => !isUnsafeURLByte c)
  let sp := splitScheme url2
  let scheme := sp.1
  let url3 := sp.2
  if url3.take 2 = ['/', '/'] then
    let netloc := (url3.drop 2).takeWhile (fun c => !isNetlocDelim c)
    let url4 := (url3.drop 2).dropWhile (fun c => !isNetlocDelim c)
    if ('[' ∈ netloc ∧ ']' ∉ netloc) ∨ (']' ∈ netloc ∧ '[' ∉ netloc) then
      .error "Invalid IPv6 URL"
    else if '[' ∈ netloc ∧ ']' ∈ netloc then
      if bracketedHostOK (bracketedHostOf netloc) then
        .ok (splitFragQuery scheme netloc url4)
      else .error "Invalid bracketed host"
    else .ok (splitFragQuery scheme netloc url4)
  else .ok (splitFragQuery scheme [] url3)

/-- The six components produced by urlparse. -/
structure ParseResult where
  scheme : List Char
  netloc : List Char
  path : List Char
  params : List Char
  query : List Char
  fragment : List Char
deriving DecidableEq, Repr

/-- The uses params list of schemes for which urlparse separates
parameters from the last path segment. -/
def usesParams : List (List Char) :=
  ["", "ftp", "hdl", "prospero", "http", "imap", "https", "shttp", "rtsp",
   "rtsps", "rtspu", "sip", "sips", "mms", "sftp", "tel"].map String.toList

/-- The uses netloc list of schemes for which urlunsplit re-inserts the
double slash in front of an empty netloc. -/
def usesNetloc : List (List Char) :=
  ["", "ftp", "http", "gopher", "nntp", "telnet", "imap", "wais", "file",
   "mms", "https", "shttp", "snews", "prospero", "rtsp", "rtsps", "rtspu",
   "rsync", "svn", "svn+ssh", "sftp", "nfs", "git", "git+ssh", "ws",
   "wss"].map String.toList

/-- splitparams: when the url contains a slash, the params begin after the
first semicolon at or past the last slash, otherwise after the first
semicolon; absent that, there are no params. -/
def splitparams (url : List Char) : List Char × List Char :=
  match splitOnFirst '/' url.reverse with
  | (revAfter, some revBefore) =>
    match splitOnFirst ';' revAfter.reverse with
    | (p1, some p2) => (revBefore.reverse ++ '/' :: p1, p2)
    | (_, none) => (url, [])
  | (_, none) =>
    match splitOnFirst ';' url with
    | (p1, some p2) => (p1, p2)
    | (_, none) => (url, [])

/-- urlparse: urlsplit followed by the params separation, applied when the
scheme uses params and the path contains a semicolon. -/
def urlparseE (url : List Char) : Except String ParseResult :=
  match urlsplitE url with
  | .error e => .error e
  | .ok s =>
    if s.scheme ∈ usesParams ∧ ';' ∈ s.path then
      let pp := splitparams s.path
      .ok ⟨s.scheme, s.netloc, pp.1, pp.2, s.query, s.fragment⟩
    else
      .ok ⟨s.scheme, s.netloc, s.path, [], s.query, s.fragment⟩

/-- urlunsplit of CPython 3.11: the double slash and netloc are emitted
when the netloc is nonempty, or when the scheme uses a netloc and the url
does not already start with two slashes; a url not starting with a slash
gets one prepended in that case. Then scheme, query and fragment are
attached when nonempty. -/
def urlunsplit (s : SplitResult) : List Char :=
  let url := s.path
  let url :=
    if s.netloc ≠ [] ∨ (s.scheme ≠ [] ∧ s.scheme ∈ usesNetloc ∧ url.take 2 ≠ ['/', '/']) then
      let url2 := if url ≠ [] ∧ url.head? ≠ some '/' then '/' :: url else url
      '/' :: '/' :: (s.netloc ++ url2)
    else url
  let url := if s.scheme ≠ [] then s.scheme ++ ':' :: url else url
  let url := if s.query ≠ [] then url ++ '?' :: s.query else url
  if s.fragment ≠ [] then url ++ '#' :: s.fragment else url

/-- urlunparse: re-join path and params with a semicolon when params are
nonempty, then urlunsplit. -/
def urlunparse (p : ParseResult) : List Char :=
  let url := if p.params ≠ [] then p.path ++ ';' :: p.params else p.path
  urlunsplit ⟨p.scheme, p.netloc, url, p.query, p.fragment⟩

/-- clean_linkedin_url (src/app.py lines 58-60):
urlunparse(urlparse(url)._replace(query="")), propagating the ValueError
cases of urlparse. -/
def clean_linkedin_url (url : List Char) : Except String (List Char) :=
  match urlparseE url with
  | .error e => .error e
  | .ok p => .ok (urlunparse { p with query := [] })

/-- The path rejoined with the params, as urlunparse prepares it; several
invariants below are phrased on this list. -/
def paramsJoin (p : ParseResult) : List Char :=
  if p.params ≠ [] then p.path ++ ';' :: p.params else p.path

/-- The trailing fragment part of urlunsplit output. -/
def fragPart (p : ParseResult) : List Char :=
  if p.fragment ≠ [] then '#' :: p.fragment else []

/-- The invariants every urlparseE result satisfies once its query is
erased. Together with the two side conditions below they make the
unparse-then-parse round trip exact. -/
structure WFparse (p : ParseResult) : Prop where
  schemeSafe : ∀ c ∈ p.scheme, isUnsafeURLByte c = false
  netlocSafe : ∀ c ∈ p.netloc, isUnsafeURLByte c = false
  pathSafe : ∀ c ∈ p.path, isUnsafeURLByte c = false
  paramsSafe : ∀ c ∈ p.params, isUnsafeURLByte c = false
  fragmentSafe : ∀ c ∈ p.fragment, isUnsafeURLByte c = false
  schemeShape : p.scheme = [] ∨ ∃ c cs, p.scheme = c :: cs ∧ isAsciiAlpha c = true ∧
      p.scheme.all isSchemeChar = true ∧ p.scheme.map lowerChar = p.scheme
  netlocNoDelim : ∀ c ∈ p.netloc, isNetlocDelim c = false
  netlocBrackets : ¬ (('[' ∈ p.netloc ∧ ']' ∉ p.netloc) ∨ (']' ∈ p.netloc ∧ '[' ∉ p.netloc))
  netlocHost : ('[' ∈ p.netloc ∧ ']' ∈ p.netloc) → bracketedHostOK (bracketedHostOf p.netloc) = true
  pathNoQ : '?' ∉ p.path
  pathNoH : '#' ∉ p.path
  paramsNoQ : '?' ∉ p.params
  paramsNoH : '#' ∉ p.params
  netlocSlash : p.netloc ≠ [] → paramsJoin p = [] ∨ (paramsJoin p).head? = some '/'
  nakedNoScheme : p.scheme = [] → p.netloc = [] →
      splitScheme (paramsJoin p ++ fragPart p) = ([], paramsJoin p ++ fragPart p)
  nakedHead : p.scheme = [] → p.netloc = [] → ∀ c, (paramsJoin p).head? = some c →
      isC0OrSpace c = false
  paramsEq : (if p.scheme ∈ usesParams ∧ ';' ∈ paramsJoin p then splitparams (paramsJoin p)
      else (paramsJoin p, [])) = (p.path, p.params)

/-- Side condition one of the amended URL claim: with an empty netloc the
rejoined path must not begin with two slashes, since unparsing would turn
its first segment into a netloc. -/
def noSlashSlashPath (p : ParseResult) : Prop :=
  p.netloc = [] → (paramsJoin p).take 2 ≠ ['/', '/']

/-- Side condition two of the amended URL claim: with an empty netloc and
a scheme on the uses-netloc list, the rejoined path must be empty or
absolute, since unparsing would insert a slash in front of it. -/
def absolutePathIfNetlocScheme (p : ParseResult) : Prop :=
  p.netloc = [] → p.scheme ≠ [] → p.scheme ∈ usesNetloc →
    paramsJoin p = [] ∨ (paramsJoin p).head? = some '/'

/- ===================== Stubs used by concrete instances ============== -/

/-- A response the except clause treats as retriable: a network-level
failure, or an HTTP error status other than 429 (raise_for_status turns
the latter into an HTTPError, itself a RequestException). -/
def retriableError : UpResp → Prop
  | .resp status _ => (400 ≤ status ∧ status < 600) ∧ status ≠ 429
  | .netErr _ => True

/-- Stub upstream answering 404 on every attempt. -/
def stub404 : Nat → UpResp := fun _ => .resp 404 (.jstr "Not Found")

/-- Stub upstream answering 429 on every attempt. -/
def stub429 : Nat → UpResp := fun _ => .resp 429 (.jstr "Too Many Requests")

/-- Stub upstream answering 429 twice and then a decodable nonempty 200. -/
def stub429then200 : Nat → UpResp := fun n =>
  if n = 2 then .resp 200 (.jobj [("data", .jstr "payload")]) else .resp 429 .null

/-- Stub upstream answering 200 with an empty object body. -/
def stubEmpty200 : Nat → UpResp := fun _ => .resp 200 (.jobj [])

/-- The parse of a representative LinkedIn post url carrying a tracking
query parameter. -/
def c7p : ParseResult :=
  ⟨"https".toList, "www.linkedin.com".toList, "/posts/foo".toList, [],
   "utm=x".toList, []⟩

/-- The comment list of the analytics example in the spec. -/
def c8comments : List CComment :=
  [⟨some ⟨some "A"⟩, some ⟨some 2⟩⟩,
   ⟨some ⟨some "A"⟩, some ⟨some 4⟩⟩,
   ⟨some ⟨some "B"⟩, some ⟨some 0⟩⟩]

/-- Author multiset with six distinct names, five of multiplicity two and
one of multiplicity one, exercising the top-five cut. -/
def c8demoAuthors : List String :=
  ["a", "a", "b", "b", "c", "c", "d", "d", "e", "e", "f"]

instance (keys : List String) : IsTotal (String × Nat) (mcRel keys) where
  total p q := by
    rcases Nat.lt_trichotomy p.2 q.2 with h | h | h
    · exact Or.inr (Or.inl h)
    · rcases Nat.le_total (keys.indexOf p.1) (keys.indexOf q.1) with hi | hi
      · exact Or.inl (Or.inr ⟨h, hi⟩)
      · exact Or.inr (Or.inr ⟨h.symm, hi⟩)
    · exact Or.inl (Or.inl h)

instance (keys : List String) : IsTrans (String × Nat) (mcRel keys) where
  trans p q r hpq hqr := by
    rcases hpq with h1 | ⟨h1, h1i⟩ <;> rcases hqr with h2 | ⟨h2, h2i⟩
    · exact Or.inl (h2.trans h1)
    · exact Or.inl (h2 ▸ h1)
    · exact Or.inl (h1 ▸ h2)
    · exact Or.inr ⟨h1.trans h2, h1i.trans h2i⟩

/- ===================== Theorems: rate gate ===================== -/

/-- One rate gate invocation moves last_call_time forward by at least the
minimum interval: if the elapsed time is short it sleeps exactly the
shortfall, landing on last + minInterval; otherwise now is already at
least last + minInterval. -/
theorem rate_limit_gap (minInterval last now : ℚ) :
    last + minInterval ≤ (rate_limit minInterval last now).2 := by
  unfold rate_limit
  by_cases h : now - last < minInterval
  · simp only [h, if_pos]
    linarith
  · simp only [h, if_neg, not_false_iff]
    have h2 := not_lt.mp h
    linarith

/-- The head of a gate time sequence is at least minInterval past the
initial last_call_time. -/
theorem gateTimes_head (minInterval last : ℚ) (nows : List ℚ) (h : ℚ)
    (hh : (gateTimes minInterval last nows).head? = some h) :
    last + minInterval ≤ h := by
  cases nows with
  | nil => simp [gateTimes] at hh
  | cons now rest =>
    simp only [gateTimes, List.head?_cons, Option.some_inj] at hh
    exact hh ▸ rate_limit_gap minInterval last now

/-- C2: in the sequential simulated-clock model, any two consecutive
dispatch timestamps recorded by the rate gate are at least
min_interval = 1.2 seconds apart, whatever the sequence of clock readings
at which routes invoke the gate; all routes share the single
last_call_time state threaded here. -/
theorem rate_gate_min_interval_gap (last0 : ℚ) (nows : List ℚ) :
    List.Chain' (fun a b => a + min_interval ≤ b)
      (gateTimes min_interval last0 nows) := by
  induction nows generalizing last0 with
  | nil => simp [gateTimes]
  | cons now rest ih =>
    simp only [gateTimes]
    rw [List.chain'_cons']
    refine ⟨fun y hy => ?_, ih _⟩
    exact gateTimes_head min_interval _ rest y hy

/-- Helper: the trace built by the retry loop keeps every outbound call
immediately after a rate gate event, whatever event precedes the trace. -/
theorem fetchLoop_gbg (up : Nat → UpResp) (key : String) :
    ∀ (attempts : List Nat) (prev : Option Ev),
      gbgFrom prev (fetchLoop up key attempts).1 := by
  intro attempts
  induction attempts with
  | nil => intro prev; simp [fetchLoop, gbgFrom]
  | cons a rest ih =>
    intro prev
    simp only [fetchLoop]
    cases up a with
    | resp status body =>
      by_cases h429 : status = 429
      · simp [h429, gbgFrom, ih]
      · simp only [if_neg h429]
        by_cases herr : 400 ≤ status ∧ status < 600
        · simp only [if_pos herr]
          by_cases h2 : a = 2
          · simp [h2, gbgFrom]
          · simp [h2, gbgFrom, ih]
        · simp only [if_neg herr]
          by_cases hf : jfalsy body
          · simp [hf, gbgFrom]
          · simp [hf, gbgFrom]
    | netErr msg =>
      by_cases h2 : a = 2
      · simp [h2, gbgFrom]
      · simp [h2, gbgFrom, ih]

/-- C10: the stored last_call_time never decreases, a single invocation
moving it forward from any state, and a whole invocation sequence forming
a monotone chain; and in every dispatch trace each outbound call of every
attempt, including failing ones, is immediately preceded by the rate gate
invocation that performed that update. -/
theorem last_call_time_monotone_and_gate_first :
    (∀ last now : ℚ, last ≤ (rate_limit min_interval last now).2) ∧
    (∀ (last0 : ℚ) (nows : List ℚ),
        List.Chain (· ≤ ·) last0 (gateTimes min_interval last0 nows)) ∧
    (∀ (up : Nat → UpResp) (key : String) (attempts : List Nat),
        gateBeforeGet (fetchLoop up key attempts).1) ∧
    (∀ (endpoint : String) (params : List (String × String))
        (hdr : Option String) (dflt : String) (up : Nat → UpResp),
        gateBeforeGet (fetch_from_rapidapi endpoint params hdr dflt up).1) := by
  have hstep : ∀ last now : ℚ, last ≤ (rate_limit min_interval last now).2 := by
    intro last now
    have := rate_limit_gap min_interval last now
    have : (0 : ℚ) ≤ min_interval := by norm_num [min_interval]
    linarith [rate_limit_gap min_interval last now]
  refine ⟨hstep, ?_, ?_, ?_⟩
  · intro last0 nows
    induction nows generalizing last0 with
    | nil => simp [gateTimes]
    | cons now rest ih =>
      simp only [gateTimes]
      exact List.Chain.cons (hstep last0 now) (ih _)
  · intro up key attempts
    exact fetchLoop_gbg up key attempts none
  · intro endpoint params hdr dflt up
    unfold fetch_from_rapidapi
    by_cases hk : resolveKey hdr dflt = ""
    · simp [hk, gateBeforeGet, gbgFrom]
    · simp only [hk, if_neg]
      simpa [gateBeforeGet] using fetchLoop_gbg up (resolveKey hdr dflt) [0, 1, 2] none

/-- Helper: the full trace and outcome of a dispatch whose three attempts
all see a 429 response. -/
theorem fetchLoop_all429 (up : Nat → UpResp) (key : String)
    (b0 b1 b2 : JVal) (h0 : up 0 = .resp 429 b0) (h1 : up 1 = .resp 429 b1)
    (h2 : up 2 = .resp 429 b2) :
    fetchLoop up key [0, 1, 2] =
      ([.rateGate, .httpGet 0 key, .sleep 1, .rateGate, .httpGet 1 key,
        .sleep 2, .rateGate, .httpGet 2 key, .sleep 4],
       .failure ⟨429, "RapidAPI quota exceeded."⟩) := by
  simp [fetchLoop, h0, h1, h2]

/-- C3: when the upstream returns 429 on all three attempts the dispatch
fails with HTTPException 429 (quota exceeded), the backoff sleep after the
429 of attempt 0 being 2 to the power 0 = 1 second and the one after
attempt 1 being 2 seconds, as the trace shows. -/
theorem all_429_fails_quota (endpoint : String) (params : List (String × String))
    (hdr : Option String) (dflt : String) (up : Nat → UpResp) (b0 b1 b2 : JVal)
    (h0 : up 0 = .resp 429 b0) (h1 : up 1 = .resp 429 b1) (h2 : up 2 = .resp 429 b2)
    (hk : resolveKey hdr dflt ≠ "") :
    fetch_from_rapidapi endpoint params hdr dflt up =
      ([.rateGate, .httpGet 0 (resolveKey hdr dflt), .sleep 1,
        .rateGate, .httpGet 1 (resolveKey hdr dflt), .sleep 2,
        .rateGate, .httpGet 2 (resolveKey hdr dflt), .sleep 4],
       .failure ⟨429, "RapidAPI quota exceeded."⟩) := by
  unfold fetch_from_rapidapi
  simp only [hk, if_neg, ne_eq, not_false_iff]
  exact fetchLoop_all429 up _ b0 b1 b2 h0 h1 h2

/-- Witness for C3 on a concrete all-429 stub. -/
theorem all_429_fails_quota_witness :
    fetch_from_rapidapi "post/comments" [] (some "k") "" stub429 =
      ([.rateGate, .httpGet 0 "k", .sleep 1, .rateGate, .httpGet 1 "k",
        .sleep 2, .rateGate, .httpGet 2 "k", .sleep 4],
       .failure ⟨429, "RapidAPI quota exceeded."⟩) :=
  all_429_fails_quota "post/comments" [] (some "k") "" stub429 _ _ _
    rfl rfl rfl (by decide)

/-- C9: when even the third attempt sees a 429, the loop still sleeps
2 to the power 2 = 4 seconds before falling out of the loop and raising
the quota failure, so the all-429 path sleeps 1 + 2 + 4 = 7 seconds in
total and its trace ends with that final 4 second sleep, after which no
further attempt follows. -/
theorem final_429_sleeps_then_fails (endpoint : String) (params : List (String × String))
    (hdr : Option String) (dflt : String) (up : Nat → UpResp) (b0 b1 b2 : JVal)
    (h0 : up 0 = .resp 429 b0) (h1 : up 1 = .resp 429 b1) (h2 : up 2 = .resp 429 b2)
    (hk : resolveKey hdr dflt ≠ "") :
    totalSleep (fetch_from_rapidapi endpoint params hdr dflt up).1 = 7 ∧
    (fetch_from_rapidapi endpoint params hdr dflt up).1.getLast? = some (.sleep 4) ∧
    (fetch_from_rapidapi endpoint params hdr dflt up).2 =
      .failure ⟨429, "RapidAPI quota exceeded."⟩ := by
  have hfe : fetch_from_rapidapi endpoint params hdr dflt up =
      ([.rateGate, .httpGet 0 (resolveKey hdr dflt), .sleep 1,
        .rateGate, .httpGet 1 (resolveKey hdr dflt), .sleep 2,
        .rateGate, .httpGet 2 (resolveKey hdr dflt), .sleep 4],
       .failure ⟨429, "RapidAPI quota exceeded."⟩) := by
    unfold fetch_from_rapidapi
    simp only [hk, if_neg, ne_eq, not_false_iff]
    exact fetchLoop_all429 up _ b0 b1 b2 h0 h1 h2
  rw [hfe]
  refine ⟨by simp [totalSleep], by simp, rfl⟩

/-- Witness for C9 on the concrete all-429 stub. -/
theorem final_429_sleeps_then_fails_witness :
    totalSleep (fetch_from_rapidapi "post/comments" [] (some "k") "" stub429).1 = 7 ∧
    (fetch_from_rapidapi "post/comments" [] (some "k") "" stub429).1.getLast? =
      some (.sleep 4) ∧
    (fetch_from_rapidapi "post/comments" [] (some "k") "" stub429).2 =
      .failure ⟨429, "RapidAPI quota exceeded."⟩ :=
  final_429_sleeps_then_fails "post/comments" [] (some "k") "" stub429 _ _ _
    rfl rfl rfl (by decide)

/-- C4: when the upstream returns 429 twice and then a 200 with a truthy
decodable body, the dispatch succeeds on the third attempt and returns the
decoded payload; the trace shows the two backoff sleeps of 1 and 2 seconds
(3 seconds in total) and a rate gate invocation before every attempt,
retries included. -/
theorem twice_429_then_success (endpoint : String) (params : List (String × String))
    (hdr : Option String) (dflt : String) (up : Nat → UpResp) (b0 b1 body : JVal)
    (h0 : up 0 = .resp 429 b0) (h1 : up 1 = .resp 429 b1)
    (h2 : up 2 = .resp 200 body) (hbody : jfalsy body = false)
    (hk : resolveKey hdr dflt ≠ "") :
    fetch_from_rapidapi endpoint params hdr dflt up =
      ([.rateGate, .httpGet 0 (resolveKey hdr dflt), .sleep 1,
        .rateGate, .httpGet 1 (resolveKey hdr dflt), .sleep 2,
        .rateGate, .httpGet 2 (resolveKey hdr dflt)],
       .success body) := by
  unfold fetch_from_rapidapi
  simp only [hk, if_neg, ne_eq, not_false_iff]
  simp [fetchLoop, h0, h1, h2, hbody]

/-- Witness for C4 on a concrete stub answering 429, 429, 200. -/
theorem twice_429_then_success_witness :
    fetch_from_rapidapi "post/comments" [] (some "k") "" stub429then200 =
      ([.rateGate, .httpGet 0 "k", .sleep 1, .rateGate, .httpGet 1 "k",
        .sleep 2, .rateGate, .httpGet 2 "k"],
       .success (.jobj [("data", .jstr "payload")])) :=
  twice_429_then_success "post/comments" [] (some "k") "" stub429then200 _ _ _
    rfl rfl rfl rfl (by decide)

/-- C5: when the per-request header credential is absent or empty and the
process-wide default is empty, the dispatch fails with HTTPException 400
and an empty trace, i.e. before any outbound call; a present nonempty
header value is the resolved credential, and otherwise the default is. -/
theorem missing_key_400_before_dispatch (endpoint : String)
    (params : List (String × String)) (hdr : Option String) (dflt : String)
    (up : Nat → UpResp) :
    ((hdr = none ∨ hdr = some "") → dflt = "" →
        fetch_from_rapidapi endpoint params hdr dflt up =
          ([], .failure ⟨400, "Missing RapidAPI key."⟩)) ∧
    (∀ k, hdr = some k → k ≠ "" → resolveKey hdr dflt = k) ∧
    ((hdr = none ∨ hdr = some "") → resolveKey hdr dflt = dflt) := by
  refine ⟨?_, ?_, ?_⟩
  · rintro (rfl | rfl) rfl <;> simp [fetch_from_rapidapi, resolveKey]
  · rintro k rfl hk
    simp [resolveKey, hk]
  · rintro (rfl | rfl) <;> simp [resolveKey]

/-- Witness for C5: empty header value and empty default give the 400
failure with zero outbound calls. -/
theorem missing_key_400_before_dispatch_witness :
    fetch_from_rapidapi "profile/detail" [] (some "") "" stub404 =
      ([], .failure ⟨400, "Missing RapidAPI key."⟩) :=
  (missing_key_400_before_dispatch "profile/detail" [] (some "") "" stub404).1
    (Or.inr rfl) rfl

/-- Helper: the retry loop never returns a falsy decoded body as a
success, whatever the attempts and upstream. -/
theorem fetchLoop_success_not_falsy (up : Nat → UpResp) (key : String) :
    ∀ (attempts : List Nat) (evs : List Ev) (d : JVal),
      fetchLoop up key attempts = (evs, .success d) → jfalsy d = false := by
  intro attempts
  induction attempts with
  | nil =>
    intro evs d h
    simp only [fetchLoop, Prod.mk.injEq] at h
    exact absurd h.2 (by simp)
  | cons a rest ih =>
    intro evs d h
    simp only [fetchLoop] at h
    cases ha : up a with
    | resp status body =>
      rw [ha] at h
      simp only at h
      by_cases h429 : status = 429
      · rw [if_pos h429] at h
        simp only [Prod.mk.injEq] at h
        exact ih _ _ (Prod.ext rfl h.2)
      · rw [if_neg h429] at h
        by_cases herr : 400 ≤ status ∧ status < 600
        · rw [if_pos herr] at h
          by_cases h2 : a = 2
          · rw [if_pos h2] at h
            simp only [Prod.mk.injEq] at h
            exact absurd h.2 (by simp)
          · rw [if_neg h2] at h
            simp only [Prod.mk.injEq] at h
            exact ih _ _ (Prod.ext rfl h.2)
        · rw [if_neg herr] at h
          by_cases hf : jfalsy body
          · rw [if_pos hf] at h
            simp only [Prod.mk.injEq] at h
            exact absurd h.2 (by simp)
          · rw [if_neg hf] at h
            simp only [Prod.mk.injEq, Outcome.success.injEq] at h
            rw [← h.2]
            exact Bool.not_eq_true _ ▸ (by simpa using hf)
    | netErr msg =>
      rw [ha] at h
      simp only at h
      by_cases h2 : a = 2
      · rw [if_pos h2] at h
        simp only [Prod.mk.injEq] at h
        exact absurd h.2 (by simp)
      · rw [if_neg h2] at h
        simp only [Prod.mk.injEq] at h
        exact ih _ _ (Prod.ext rfl h.2)

/-- C6: a 200 response whose decoded body is falsy (empty or null) makes
the dispatch fail at once with HTTPException 502, and no dispatch ever
returns a falsy payload as a success. -/
theorem empty_body_502_never_empty_success (endpoint : String)
    (params : List (String × String)) (hdr : Option String) (dflt : String)
    (up : Nat → UpResp) :
    (∀ body, up 0 = .resp 200 body → jfalsy body = true →
        resolveKey hdr dflt ≠ "" →
        fetch_from_rapidapi endpoint params hdr dflt up =
          ([.rateGate, .httpGet 0 (resolveKey hdr dflt)],
           .failure ⟨502, "Empty response."⟩)) ∧
    (∀ evs d, fetch_from_rapidapi endpoint params hdr dflt up = (evs, .success d) →
        jfalsy d = false) := by
  constructor
  · intro body h0 hf hk
    unfold fetch_from_rapidapi
    simp only [hk, if_neg, ne_eq, not_false_iff]
    simp [fetchLoop, h0, hf]
  · intro evs d h
    unfold fetch_from_rapidapi at h
    by_cases hk : resolveKey hdr dflt = ""
    · rw [if_pos hk] at h
      simp only [Prod.mk.injEq] at h
      exact absurd h.2 (by simp)
    · rw [if_neg hk] at h
      exact fetchLoop_success_not_falsy up _ _ _ _ h

/-- Witness for C6 on a concrete empty-object 200 stub. -/
theorem empty_body_502_never_empty_success_witness :
    fetch_from_rapidapi "profile/detail" [] (some "k") "" stubEmpty200 =
      ([.rateGate, .httpGet 0 "k"], .failure ⟨502, "Empty response."⟩) :=
  (empty_body_502_never_empty_success "profile/detail" [] (some "k") "" stubEmpty200).1
    (.jobj []) rfl rfl (by decide)

/-- C1 counterexample: with an upstream answering 404 on every attempt,
the dispatch does not fail immediately with the upstream status carried
through; it consumes all three attempts (three outbound calls in the
trace) and then fails with status 500, not 404, because the HTTPError of
raise_for_status is caught by the except clause like a network error. -/
theorem non429_error_immediate_fail_counterexample :
    httpGetCount (fetch_from_rapidapi "profile/detail" [] (some "k") "" stub404).1 = 3 ∧
    (fetch_from_rapidapi "profile/detail" [] (some "k") "" stub404).2 =
      .failure ⟨500, httpErrorDetail 404⟩ ∧
    (500 : Nat) ≠ 404 := by
  refine ⟨rfl, rfl, by decide⟩

/-- C1 as amended: an upstream error status other than 429 (the 400-599
range raise_for_status raises on) is treated exactly like a network-level
error: the attempt is retried up to the three-attempt ceiling, and when
all three attempts fail that way the dispatch fails with HTTP 500 carrying
the exception text, not with the upstream status and body. -/
theorem non429_errors_retried_then_500 (endpoint : String)
    (params : List (String × String)) (hdr : Option String) (dflt : String)
    (up : Nat → UpResp)
    (h0 : retriableError (up 0)) (h1 : retriableError (up 1))
    (h2 : retriableError (up 2)) (hk : resolveKey hdr dflt ≠ "") :
    ∃ detail, fetch_from_rapidapi endpoint params hdr dflt up =
      ([.rateGate, .httpGet 0 (resolveKey hdr dflt),
        .rateGate, .httpGet 1 (resolveKey hdr dflt),
        .rateGate, .httpGet 2 (resolveKey hdr dflt)],
       .failure ⟨500, detail⟩) := by
  unfold fetch_from_rapidapi
  simp only [hk, if_neg, ne_eq, not_false_iff]
  cases e0 : up 0 with
  | resp s0 b0 =>
    rw [e0] at h0
    obtain ⟨hr0, hn0⟩ := h0
    cases e1 : up 1 with
    | resp s1 b1 =>
      rw [e1] at h1
      obtain ⟨hr1, hn1⟩ := h1
      cases e2 : up 2 with
      | resp s2 b2 =>
        rw [e2] at h2
        obtain ⟨hr2, hn2⟩ := h2
        exact ⟨httpErrorDetail s2, by simp [fetchLoop, e0, e1, e2, hr0, hn0, hr1, hn1, hr2, hn2]⟩
      | netErr m2 =>
        exact ⟨m2, by simp [fetchLoop, e0, e1, e2, hr0, hn0, hr1, hn1]⟩
    | netErr m1 =>
      cases e2 : up 2 with
      | resp s2 b2 =>
        rw [e2] at h2
        obtain ⟨hr2, hn2⟩ := h2
        exact ⟨httpErrorDetail s2, by simp [fetchLoop, e0, e1, e2, hr0, hn0, hr2, hn2]⟩
      | netErr m2 =>
        exact ⟨m2, by simp [fetchLoop, e0, e1, e2, hr0, hn0]⟩
  | netErr m0 =>
    cases e1 : up 1 with
    | resp s1 b1 =>
      rw [e1] at h1
      obtain ⟨hr1, hn1⟩ := h1
      cases e2 : up 2 with
      | resp s2 b2 =>
        rw [e2] at h2
        obtain ⟨hr2, hn2⟩ := h2
        exact ⟨httpErrorDetail s2, by simp [fetchLoop, e0, e1, e2, hr1, hn1, hr2, hn2]⟩
      | netErr m2 =>
        exact ⟨m2, by simp [fetchLoop, e0, e1, e2, hr1, hn1]⟩
    | netErr m1 =>
      cases e2 : up 2 with
      | resp s2 b2 =>
        rw [e2] at h2
        obtain ⟨hr2, hn2⟩ := h2
        exact ⟨httpErrorDetail s2, by simp [fetchLoop, e0, e1, e2, hr2, hn2]⟩
      | netErr m2 =>
        exact ⟨m2, by simp [fetchLoop, e0, e1, e2]⟩

/-- Witness for the amended C1 on the concrete all-404 stub. -/
theorem non429_errors_retried_then_500_witness :
    ∃ detail, fetch_from_rapidapi "profile/detail" [] (some "k") "" stub404 =
      ([.rateGate, .httpGet 0 "k", .rateGate, .httpGet 1 "k",
        .rateGate, .httpGet 2 "k"],
       .failure ⟨500, detail⟩) :=
  non429_errors_retried_then_500 "profile/detail" [] (some "k") "" stub404
    (by constructor <;> norm_num [stub404, retriableError])
    (by constructor <;> norm_num [stub404, retriableError])
    (by constructor <;> norm_num [stub404, retriableError])
    (by decide)

/-- C8: on the three-comment example of the spec the aggregation yields
3 total comments, 2 unique commenters, mean reactions 2 and top
commenters A twice then B once; and in general the top-commenters list
holds at most five entries, each carrying the exact multiplicity of its
name, ordered by count descending with ties by first-seen order (that is
the mcRel ordering), and every distinct name left out has multiplicity at
most that of every listed entry. -/
theorem analytics_example_and_top5 :
    comment_analytics c8comments =
      .summary ⟨3, 2, 2, [("A", 2), ("B", 1)]⟩ ∧
    (∀ authors : List String,
        (most_common 5 authors).length = min 5 (firstSeen authors).length) ∧
    (∀ authors : List String,
        List.Pairwise (mcRel (firstSeen authors)) (most_common 5 authors)) ∧
    (∀ authors : List String, ∀ p ∈ most_common 5 authors,
        p.2 = authors.count p.1 ∧ p.1 ∈ firstSeen authors) ∧
    (∀ (authors : List String) (k : String), k ∈ firstSeen authors →
        k ∉ (most_common 5 authors).map Prod.fst →
        ∀ p ∈ most_common 5 authors, authors.count k ≤ p.2) := by
  refine ⟨?_, ?_, ?_, ?_, ?_⟩
  · simp only [comment_analytics, c8comments, commentAuthors, commentReactions, firstSeen,
      most_common, counterItems, List.insertionSort, List.orderedInsert,
      List.filterMap, List.map, List.filter, List.count, List.isEmpty, List.length]
    norm_num [mcRel, AnalyticsResult.summary.injEq, List.countP, List.countP.go, List.take]
    decide
  · intro authors
    unfold most_common
    rw [List.length_take, (List.perm_insertionSort _ _).length_eq,
      counterItems, List.length_map]
  · intro authors
    have hs := List.sorted_insertionSort (mcRel (firstSeen authors)) (counterItems authors)
    exact List.Pairwise.sublist (List.take_sublist _ _) hs
  · intro authors p hp
    have h2 : p ∈ counterItems authors :=
      (List.perm_insertionSort _ _).mem_iff.mp (List.mem_of_mem_take hp)
    rcases List.mem_map.mp h2 with ⟨k, hk, rfl⟩
    exact ⟨rfl, hk⟩
  · intro authors k hk hnot p hp
    have hsort : List.Pairwise (mcRel (firstSeen authors))
        ((counterItems authors).insertionSort (mcRel (firstSeen authors))) :=
      List.sorted_insertionSort _ _
    have hmem : (k, authors.count k) ∈
        (counterItems authors).insertionSort (mcRel (firstSeen authors)) :=
      (List.perm_insertionSort _ _).mem_iff.mpr
        (List.mem_map_of_mem (fun k => (k, authors.count k)) hk)
    set s := (counterItems authors).insertionSort (mcRel (firstSeen authors)) with hsdef
    have hsplit : s.take 5 ++ s.drop 5 = s := List.take_append_drop 5 s
    have hpw := List.pairwise_append.mp (hsplit ▸ hsort)
    have hkd : (k, authors.count k) ∈ s.drop 5 := by
      rcases List.mem_append.mp (hsplit ▸ hmem) with h | h
      · exact absurd (List.mem_map_of_mem Prod.fst h) hnot
      · exact h
    have hr := hpw.2.2 p hp (k, authors.count k) hkd
    rcases hr with h | ⟨h, _⟩
    · exact le_of_lt h
    · exact le_of_eq h.symm

/-- Witness for C8: on a list with six distinct names the name left out
of the top five has multiplicity at most that of every listed entry. -/
theorem analytics_example_and_top5_witness :
    ∀ p ∈ most_common 5 c8demoAuthors, c8demoAuthors.count "f" ≤ p.2 :=
  analytics_example_and_top5.2.2.2.2 c8demoAuthors "f" (by decide) (by decide)

/- ===================== URL helper lemmas ===================== -/

/-- Char.ofNat evaluates to its argument for small code points. -/
theorem toNat_ofNat_small (n : Nat) (h2 : n ≤ 122) : (Char.ofNat n).toNat = n := by
  unfold Char.ofNat
  rw [dif_pos (by exact Or.inl (by omega) : n.isValidChar)]
  show (Char.ofNatAux n _).toNat = n
  unfold Char.ofNatAux Char.toNat
  simp [UInt32.toNat]

/-- Lowercasing an ASCII uppercase letter adds 32 to the code point. -/
theorem lowerChar_toNat_of_upper (c : Char) (h : isAsciiUpper c = true) :
    (lowerChar c).toNat = c.toNat + 32 := by
  unfold lowerChar
  rw [if_pos h]
  have hb : c.toNat ≤ 90 := by
    unfold isAsciiUpper at h
    simp only [Bool.and_eq_true, decide_eq_true_eq] at h
    exact h.2
  exact toNat_ofNat_small _ (by omega)

theorem lowerChar_of_not_upper (c : Char) (h : isAsciiUpper c = false) :
    lowerChar c = c := by
  unfold lowerChar
  rw [if_neg (by simp [h])]

/-- Bounds of an ASCII uppercase letter. -/
theorem isAsciiUpper_bounds (c : Char) (h : isAsciiUpper c = true) :
    65 ≤ c.toNat ∧ c.toNat ≤ 90 := by
  unfold isAsciiUpper at h
  simp only [Bool.and_eq_true, decide_eq_true_eq] at h
  exact h

/-- A lowered character is never uppercase, so lowering is idempotent. -/
theorem lowerChar_idem (c : Char) : lowerChar (lowerChar c) = lowerChar c := by
  by_cases h : isAsciiUpper c = true
  · have ht := lowerChar_toNat_of_upper c h
    have hb := isAsciiUpper_bounds c h
    apply lowerChar_of_not_upper
    unfold isAsciiUpper
    simp only [ht]
    have hgt : ¬ (c.toNat + 32 ≤ 90) := by omega
    simp [hgt]
  · rw [lowerChar_of_not_upper c (by simpa using h), lowerChar_of_not_upper c (by simpa using h)]

/-- Lowering preserves ASCII letters. -/
theorem isAsciiAlpha_lowerChar (c : Char) (h : isAsciiAlpha c = true) :
    isAsciiAlpha (lowerChar c) = true := by
  by_cases hu : isAsciiUpper c = true
  · have ht := lowerChar_toNat_of_upper c hu
    have hb := isAsciiUpper_bounds c hu
    unfold isAsciiAlpha isAsciiLower isAsciiUpper
    simp only [ht, Bool.or_eq_true, Bool.and_eq_true, decide_eq_true_eq]
    omega
  · rw [lowerChar_of_not_upper c (by simpa using hu)]
    exact h

/-- Lowering preserves scheme characters. -/
theorem isSchemeChar_lowerChar (c : Char) (h : isSchemeChar c = true) :
    isSchemeChar (lowerChar c) = true := by
  by_cases hu : isAsciiUpper c = true
  · have hl : isAsciiAlpha (lowerChar c) = true :=
      isAsciiAlpha_lowerChar c (by unfold isAsciiAlpha; simp [hu])
    unfold isSchemeChar
    simp [hl]
  · rw [lowerChar_of_not_upper c (by simpa using hu)]
    exact h

/-- A scheme character is not a colon, not an unsafe byte and not in the
stripped class. -/
theorem isSchemeChar_facts (c : Char) (h : isSchemeChar c = true) :
    c ≠ ':' ∧ isUnsafeURLByte c = false ∧ isC0OrSpace c = false := by
  unfold isSchemeChar isAsciiAlpha isAsciiUpper isAsciiLower isAsciiDigit at h
  simp only [Bool.or_eq_true, Bool.and_eq_true, decide_eq_true_eq] at h
  have hn : (65 ≤ c.toNat ∧ c.toNat ≤ 90) ∨ (97 ≤ c.toNat ∧ c.toNat ≤ 122) ∨
      (48 ≤ c.toNat ∧ c.toNat ≤ 57) ∨ c.toNat = 43 ∨ c.toNat = 45 ∨ c.toNat = 46 := by
    rcases h with ((((h | h) | h) | h) | h) | h
    · exact Or.inl h
    · exact Or.inr (Or.inl h)
    · exact Or.inr (Or.inr (Or.inl h))
    · subst h; exact Or.inr (Or.inr (Or.inr (Or.inl (by decide))))
    · subst h; exact Or.inr (Or.inr (Or.inr (Or.inr (Or.inl (by decide)))))
    · subst h; exact Or.inr (Or.inr (Or.inr (Or.inr (Or.inr (by decide)))))
  have h43 : 43 ≤ c.toNat ∧ c.toNat ≠ 58 := by omega
  refine ⟨?_, ?_, ?_⟩
  · intro he
    subst he
    revert h43
    decide
  · unfold isUnsafeURLByte
    have h9 : c ≠ '\t' := by intro he; subst he; revert h43; decide
    have h13 : c ≠ '\r' := by intro he; subst he; revert h43; decide
    have h10 : c ≠ '\n' := by intro he; subst he; revert h43; decide
    simp [h9, h13, h10]
  · unfold isC0OrSpace
    simp only [decide_eq_false_iff_not]
    omega

/-- An ASCII letter is not in the stripped class. -/
theorem isAsciiAlpha_not_strip (c : Char) (h : isAsciiAlpha c = true) :
    isC0OrSpace c = false := by
  unfold isAsciiAlpha isAsciiUpper isAsciiLower at h
  simp only [Bool.or_eq_true, Bool.and_eq_true, decide_eq_true_eq] at h
  unfold isC0OrSpace
  simp only [decide_eq_false_iff_not]
  omega

/-- splitOnFirst finds nothing when the character is absent. -/
theorem splitOnFirst_of_not_mem (t : Char) (l : List Char) (h : t ∉ l) :
    splitOnFirst t l = (l, none) := by
  induction l with
  | nil => rfl
  | cons c rest ih =>
    have hct : c ≠ t := fun he => h (he ▸ List.mem_cons_self c rest)
    have hr : t ∉ rest := fun hm => h (List.mem_cons_of_mem c hm)
    simp [splitOnFirst, hct, ih hr]

/-- splitOnFirst finds the explicitly placed first occurrence. -/
theorem splitOnFirst_append_cons (t : Char) (pre post : List Char) (h : t ∉ pre) :
    splitOnFirst t (pre ++ t :: post) = (pre, some post) := by
  induction pre with
  | nil => simp [splitOnFirst]
  | cons c rest ih =>
    have hct : c ≠ t := fun he => h (he ▸ List.mem_cons_self c rest)
    have hr : t ∉ rest := fun hm => h (List.mem_cons_of_mem c hm)
    simp [splitOnFirst, hct, ih hr]

/-- Soundness of a successful splitOnFirst. -/
theorem splitOnFirst_sound (t : Char) (l : List Char) :
    ∀ pre post, splitOnFirst t l = (pre, some post) → l = pre ++ t :: post ∧ t ∉ pre := by
  induction l with
  | nil => intro pre post h; exact absurd h (by simp [splitOnFirst])
  | cons c rest ih =>
    intro pre post h
    by_cases hct : c = t
    · rw [splitOnFirst, if_pos hct] at h
      injection h with h1 h2
      injection h2 with h2
      subst h1
      subst h2
      subst hct
      simp
    · rcases hr : splitOnFirst t rest with ⟨rpre, ro⟩
      rw [splitOnFirst] at h
      simp only [if_neg hct, hr] at h
      cases ro with
      | none => exact absurd h (by simp)
      | some rp =>
        injection h with h1 h2
        injection h2 with h2
        subst h1
        subst h2
        obtain ⟨hl, hnm⟩ := ih rpre rp hr
        constructor
        · rw [hl]
          rfl
        · intro hm
          rcases List.mem_cons.mp hm with he | hm2
          · exact hct he.symm
          · exact hnm hm2

/-- Soundness of an unsuccessful splitOnFirst. -/
theorem splitOnFirst_none_sound (t : Char) (l : List Char) :
    ∀ pre, splitOnFirst t l = (pre, none) → pre = l ∧ t ∉ l := by
  induction l with
  | nil =>
    intro pre h
    rw [splitOnFirst] at h
    injection h with h1 h2
    subst h1
    simp
  | cons c rest ih =>
    intro pre h
    by_cases hct : c = t
    · rw [splitOnFirst, if_pos hct] at h
      injection h with h1 h2
      exact absurd h2 (by simp)
    · rcases hr : splitOnFirst t rest with ⟨rpre, ro⟩
      rw [splitOnFirst] at h
      simp only [if_neg hct, hr] at h
      cases ro with
      | some rp =>
        injection h with h1 h2
        exact absurd h2 (by simp)
      | none =>
        injection h with h1 h2
        subst h1
        obtain ⟨hl, hnm⟩ := ih rpre hr
        constructor
        · rw [hl]
        · intro hm
          rcases List.mem_cons.mp hm with he | hm2
          · exact hct he.symm
          · exact hnm hm2

/-- splitOnFirst skips over a clean first block. -/
theorem splitOnFirst_append_left (t : Char) (a b : List Char) (h : t ∉ a) :
    splitOnFirst t (a ++ b) = (a ++ (splitOnFirst t b).1, (splitOnFirst t b).2) := by
  induction a with
  | nil => simp
  | cons c rest ih =>
    have hct : c ≠ t := fun he => h (he ▸ List.mem_cons_self c rest)
    have hr : t ∉ rest := fun hm => h (List.mem_cons_of_mem c hm)
    simp [splitOnFirst, hct, ih hr]

/-- A present character makes splitOnFirst succeed. -/
theorem splitOnFirst_isSome (t : Char) (l : List Char) (h : t ∈ l) :
    ∃ pre post, splitOnFirst t l = (pre, some post) := by
  rcases hs : splitOnFirst t l with ⟨pre, o⟩
  cases o with
  | none => exact absurd h (splitOnFirst_none_sound t l pre hs).2
  | some post => exact ⟨pre, post, rfl⟩

/-- takeWhile over an append whose first block satisfies the predicate and
whose second block opens with a failing character. -/
theorem takeWhile_append_block (p : Char → Bool) (a b : List Char)
    (ha : ∀ c ∈ a, p c = true) (hb : ∀ c, b.head? = some c → p c = false) :
    (a ++ b).takeWhile p = a := by
  induction a with
  | nil =>
    cases b with
    | nil => rfl
    | cons c rest => simp [List.takeWhile, hb c rfl]
  | cons c rest ih =>
    simp only [List.cons_append, List.takeWhile]
    rw [ha c (List.mem_cons_self c rest)]
    simp [ih (fun x hx => ha x (List.mem_cons_of_mem c hx))]

/-- dropWhile over the same split. -/
theorem dropWhile_append_block (p : Char → Bool) (a b : List Char)
    (ha : ∀ c ∈ a, p c = true) (hb : ∀ c, b.head? = some c → p c = false) :
    (a ++ b).dropWhile p = b := by
  induction a with
  | nil =>
    cases b with
    | nil => rfl
    | cons c rest => simp [List.dropWhile, hb c rfl]
  | cons c rest ih =>
    simp only [List.cons_append, List.dropWhile]
    rw [ha c (List.mem_cons_self c rest)]
    exact ih (fun x hx => ha x (List.mem_cons_of_mem c hx))

/-- dropWhile is the identity when the head does not satisfy the
predicate. -/
theorem dropWhile_eq_self_of_head (p : Char → Bool) (l : List Char)
    (h : ∀ c, l.head? = some c → p c = false) : l.dropWhile p = l := by
  cases l with
  | nil => rfl
  | cons c rest => simp [List.dropWhile, h c rfl]

/-- The head of a dropWhile result fails the predicate. -/
theorem head_dropWhile_false (p : Char → Bool) (l : List Char) (c : Char)
    (h : (l.dropWhile p).head? = some c) : p c = false := by
  induction l with
  | nil => simp [List.dropWhile] at h
  | cons a rest ih =>
    by_cases hp : p a = true
    · rw [List.dropWhile_cons_of_pos hp] at h
      exact ih h
    · rw [List.dropWhile_cons_of_neg (by simpa using hp)] at h
      simp only [List.head?_cons, Option.some_inj] at h
      subst h
      simpa using hp

/-- Filtering keeps a head that satisfies the filter. -/
theorem filter_head_keep (p : Char → Bool) (l : List Char) (c : Char)
    (hl : l.head? = some c) (hc : p c = true) :
    (l.filter p).head? = some c := by
  cases l with
  | nil => simp at hl
  | cons a rest =>
    simp only [List.head?_cons, Option.some_inj] at hl
    subst hl
    simp [List.filter, hc]

/-- splitScheme recovers an already-lowered well-formed scheme placed in
front of a colon. -/
theorem splitScheme_recover (scheme rest : List Char) (c : Char) (cs : List Char)
    (hsh : scheme = c :: cs) (hal : isAsciiAlpha c = true)
    (hall : scheme.all isSchemeChar = true)
    (hlow : scheme.map lowerChar = scheme) :
    splitScheme (scheme ++ ':' :: rest) = (scheme, rest) := by
  have hnc : ':' ∉ scheme := by
    intro hm
    have hx := List.all_eq_true.mp hall ':' hm
    exact absurd hx (by decide)
  unfold splitScheme
  rw [splitOnFirst_append_cons ':' scheme rest hnc, hsh]
  simp only
  rw [if_pos]
  · rw [← hsh, hlow]
  · rw [← hsh]
    simp [hal, hall]

/-- splitScheme is inert on a list whose head is not an ASCII letter. -/
theorem splitScheme_inert_head (l : List Char) (c : Char) (hl : l.head? = some c)
    (hc : isAsciiAlpha c = false) : splitScheme l = ([], l) := by
  unfold splitScheme
  rcases hs : splitOnFirst ':' l with ⟨pre, o⟩
  cases o with
  | none => rfl
  | some post =>
    obtain ⟨hdec, _⟩ := splitOnFirst_sound ':' l pre post hs
    cases pre with
    | nil => rfl
    | cons p pre2 =>
      have hp : p = c := by
        rw [hdec] at hl
        simpa using hl
      simp only
      rw [if_neg]
      simp [hp, hc]

/-- A splitScheme call that produced an empty scheme left the url
untouched. -/
theorem splitScheme_empty_inert (l r : List Char) (h : splitScheme l = ([], r)) :
    r = l := by
  unfold splitScheme at h
  rcases hs : splitOnFirst ':' l with ⟨pre, o⟩
  rw [hs] at h
  cases o with
  | none =>
    simp only [Prod.mk.injEq] at h
    exact h.2.symm
  | some post =>
    cases pre with
    | nil =>
      simp only [Prod.mk.injEq] at h
      exact h.2.symm
    | cons p pre2 =>
      simp only at h
      by_cases hcond : (isAsciiAlpha p && (p :: pre2).all isSchemeChar) = true
      · rw [if_pos hcond] at h
        simp only [Prod.mk.injEq] at h
        exact absurd h.1.symm (by simp)
      · rw [if_neg hcond] at h
        simp only [Prod.mk.injEq] at h
        exact h.2.symm

/-- Extending an unschemed url with a fragment part keeps it unschemed:
if no scheme is detected in P followed by some tail, none is detected in
P followed by an empty or hash-led tail. -/
theorem splitScheme_no_detect_extend (P t F : List Char)
    (hsx : splitScheme (P ++ t) = ([], P ++ t))
    (hF : F = [] ∨ ∃ f, F = '#' :: f) :
    splitScheme (P ++ F) = ([], P ++ F) := by
  by_cases hcol : ':' ∈ P
  · obtain ⟨A, B, hAB⟩ := splitOnFirst_isSome ':' P hcol
    obtain ⟨hPdec, hnA⟩ := splitOnFirst_sound ':' P A B hAB
    have hsplit1 : splitOnFirst ':' (P ++ t) = (A, some (B ++ t)) := by
      rw [hPdec, List.append_assoc, List.cons_append]
      exact splitOnFirst_append_cons ':' A (B ++ t) hnA
    have hsplit2 : splitOnFirst ':' (P ++ F) = (A, some (B ++ F)) := by
      rw [hPdec, List.append_assoc, List.cons_append]
      exact splitOnFirst_append_cons ':' A (B ++ F) hnA
    unfold splitScheme at hsx ⊢
    rw [hsplit1] at hsx
    rw [hsplit2]
    cases A with
    | nil => rfl
    | cons a A2 =>
      simp only at hsx ⊢
      by_cases hcond : (isAsciiAlpha a && (a :: A2).all isSchemeChar) = true
      · rw [if_pos hcond] at hsx
        simp only [Prod.mk.injEq] at hsx
        exact absurd hsx.1.symm (by simp)
      · rw [if_neg hcond]
    
  · rcases hF with rfl | ⟨f, rfl⟩
    · rw [List.append_nil]
      unfold splitScheme
      rw [splitOnFirst_of_not_mem ':' P hcol]
    · have hsp : splitOnFirst ':' ('#' :: f) =
          ('#' :: (splitOnFirst ':' f).1, (splitOnFirst ':' f).2) := by
        rw [splitOnFirst]
        simp
      unfold splitScheme
      rw [splitOnFirst_append_left ':' P ('#' :: f) hcol, hsp]
      rcases ho : (splitOnFirst ':' f).2 with _ | post
      · rfl
      · have hnotall : ¬ (P ++ '#' :: (splitOnFirst ':' f).1).all isSchemeChar = true := by
          intro hall
          have hx := List.all_eq_true.mp hall '#'
            (List.mem_append_right P (List.mem_cons_self _ _))
          exact absurd hx (by decide)
        cases P with
        | nil =>
          simp only [List.nil_append]
          rw [if_neg]
          intro hcond
          rw [Bool.and_eq_true] at hcond
          exact absurd hcond.1 (by decide)
        | cons p P2 =>
          simp only [List.cons_append]
          rw [if_neg]
          intro hcond
          rw [Bool.and_eq_true] at hcond
          exact hnotall (by simpa using hcond.2)

/-- splitparams without any slash and without semicolon. -/
theorem splitparams_plain (l : List Char) (hs : '/' ∉ l) (hsc : ';' ∉ l) :
    splitparams l = (l, []) := by
  unfold splitparams
  rw [splitOnFirst_of_not_mem '/' l.reverse (by simpa using hs)]
  rw [splitOnFirst_of_not_mem ';' l hsc]

/-- splitparams without a slash takes the first semicolon. -/
theorem splitparams_noslash (l p1 p2 : List Char) (hs : '/' ∉ l)
    (h : splitOnFirst ';' l = (p1, some p2)) : splitparams l = (p1, p2) := by
  unfold splitparams
  rw [splitOnFirst_of_not_mem '/' l.reverse (by simpa using hs), h]

/-- splitparams with a final slash block free of semicolons. -/
theorem splitparams_slash_none (a b : List Char) (hsb : '/' ∉ b) (hscb : ';' ∉ b) :
    splitparams (a ++ '/' :: b) = (a ++ '/' :: b, []) := by
  unfold splitparams
  have hrev : (a ++ '/' :: b).reverse = b.reverse ++ '/' :: a.reverse := by
    simp
  rw [hrev, splitOnFirst_append_cons '/' b.reverse a.reverse (by simpa using hsb)]
  simp only [List.reverse_reverse]
  rw [splitOnFirst_of_not_mem ';' b hscb]

/-- splitparams with a final slash block containing a semicolon. -/
theorem splitparams_slash_some (a b p1 p2 : List Char) (hsb : '/' ∉ b)
    (h : splitOnFirst ';' b = (p1, some p2)) :
    splitparams (a ++ '/' :: b) = (a ++ '/' :: p1, p2) := by
  unfold splitparams
  have hrev : (a ++ '/' :: b).reverse = b.reverse ++ '/' :: a.reverse := by
    simp
  rw [hrev, splitOnFirst_append_cons '/' b.reverse a.reverse (by simpa using hsb)]
  simp only [List.reverse_reverse]
  rw [h]

/-- splitparams joined back: when the params are nonempty the input was
path, semicolon, params. -/
theorem splitparams_join (l a b : List Char) (h : splitparams l = (a, b)) :
    a = l ∨ l = a ++ ';' :: b := by
  unfold splitparams at h
  rcases h1 : splitOnFirst '/' l.reverse with ⟨revAfter, o1⟩
  rw [h1] at h
  cases o1 with
  | none =>
    rcases h2 : splitOnFirst ';' l with ⟨p1, o2⟩
    rw [h2] at h
    cases o2 with
    | none =>
      injection h with ha hb
      exact Or.inl ha.symm
    | some p2 =>
      injection h with ha hb
      obtain ⟨hdec, _⟩ := splitOnFirst_sound ';' l p1 p2 h2
      subst ha
      subst hb
      exact Or.inr hdec
  | some revBefore =>
    simp only at h
    rcases h2 : splitOnFirst ';' revAfter.reverse with ⟨p1, o2⟩
    rw [h2] at h
    cases o2 with
    | none =>
      injection h with ha hb
      exact Or.inl ha.symm
    | some p2 =>
      injection h with ha hb
      obtain ⟨hdec1, hnm1⟩ := splitOnFirst_sound '/' l.reverse revAfter revBefore h1
      obtain ⟨hdec2, _⟩ := splitOnFirst_sound ';' revAfter.reverse p1 p2 h2
      subst ha
      subst hb
      right
      have hl : l = revBefore.reverse ++ '/' :: revAfter.reverse := by
        have := congrArg List.reverse hdec1
        simpa using this
      rw [hl, hdec2]
      simp

/-- Appending an empty or hash-led tail cannot create a leading double
slash. -/
theorem take_two_append_ne (u0 F : List Char) (hu : u0.take 2 ≠ ['/', '/'])
    (hF : F = [] ∨ ∃ f, F = '#' :: f) : (u0 ++ F).take 2 ≠ ['/', '/'] := by
  rcases hF with rfl | ⟨f, rfl⟩
  · simpa using hu
  · match u0 with
    | [] => simp
    | [a] => simp
    | a :: b :: rest => simpa using hu

/-- Membership in the rejoined path-and-params comes from the path, the
params, or the separating semicolon. -/
theorem paramsJoin_not_mem (p : ParseResult) (t : Char) (ht : t ≠ ';')
    (hp : t ∉ p.path) (hpr : t ∉ p.params) : t ∉ paramsJoin p := by
  unfold paramsJoin
  by_cases hne : p.params = []
  · simp [hne, hp]
  · rw [if_pos (by simpa using hne)]
    intro hm
    rcases List.mem_append.mp hm with hm | hm
    · exact hp hm
    · rcases List.mem_cons.mp hm with he | hm2
      · exact ht he
      · exact hpr hm2

/-- The fragment and query splits of the re-parse recover the rejoined
path, an empty query and the fragment. -/
theorem splitFragQuery_recover (scheme netloc : List Char) (p : ParseResult)
    (hnh : '#' ∉ paramsJoin p) (hnq : '?' ∉ paramsJoin p) :
    splitFragQuery scheme netloc (paramsJoin p ++ fragPart p) =
      ⟨scheme, netloc, paramsJoin p, [], p.fragment⟩ := by
  unfold splitFragQuery fragPart
  by_cases hf : p.fragment = []
  · rw [if_neg (by simpa using hf)]
    rw [List.append_nil]
    rw [splitOnFirst_of_not_mem '#' (paramsJoin p) hnh]
    simp only
    rw [splitOnFirst_of_not_mem '?' (paramsJoin p) hnq]
    rw [hf]
  · rw [if_pos (by simpa using hf)]
    rw [splitOnFirst_append_cons '#' (paramsJoin p) p.fragment hnh]
    simp only
    rw [splitOnFirst_of_not_mem '?' (paramsJoin p) hnq]

/-- Membership through an optional appended separator block, tail form. -/
theorem mem_if_append_tail (cond : Prop) [Decidable cond] (a b : List Char)
    (x : Char) (c : Char) (h : c ∈ (if cond then b ++ x :: a else b)) :
    c ∈ a ∨ c = x ∨ c ∈ b := by
  split_ifs at h
  · rcases List.mem_append.mp h with h | h
    · exact Or.inr (Or.inr h)
    · rcases List.mem_cons.mp h with h | h
      · exact Or.inr (Or.inl h)
      · exact Or.inl h
  · exact Or.inr (Or.inr h)

/-- Membership through an optional prepended separator block, head form. -/
theorem mem_if_append_cons (cond : Prop) [Decidable cond] (a b : List Char)
    (x : Char) (c : Char) (h : c ∈ (if cond then a ++ x :: b else b)) :
    c ∈ a ∨ c = x ∨ c ∈ b := by
  split_ifs at h
  · rcases List.mem_append.mp h with h | h
    · exact Or.inl h
    · rcases List.mem_cons.mp h with h | h
      · exact Or.inr (Or.inl h)
      · exact Or.inr (Or.inr h)
  · exact Or.inr (Or.inr h)

/-- Membership through the netloc stage of urlunsplit. -/
theorem mem_netloc_stage (cond1 cond2 : Prop) [Decidable cond1]
    [Decidable cond2] (netloc path : List Char) (c : Char)
    (h : c ∈ (if cond1 then
        '/' :: '/' :: (netloc ++ (if cond2 then '/' :: path else path))
      else path)) :
    c ∈ netloc ∨ c ∈ path ∨ c = '/' := by
  split_ifs at h with h1 h2
  · rcases List.mem_cons.mp h with h | h
    · exact Or.inr (Or.inr h)
    · rcases List.mem_cons.mp h with h | h
      · exact Or.inr (Or.inr h)
      · rcases List.mem_append.mp h with h | h
        · exact Or.inl h
        · rcases List.mem_cons.mp h with h | h
          · exact Or.inr (Or.inr h)
          · exact Or.inr (Or.inl h)
  · rcases List.mem_cons.mp h with h | h
    · exact Or.inr (Or.inr h)
    · rcases List.mem_cons.mp h with h | h
      · exact Or.inr (Or.inr h)
      · rcases List.mem_append.mp h with h | h
        · exact Or.inl h
        · exact Or.inr (Or.inl h)
  · exact Or.inr (Or.inl h)

/-- Every character of an unsplit url is a component character or one of
the inserted separators. -/
theorem urlunsplit_mem (s : SplitResult) (c : Char) (h : c ∈ urlunsplit s) :
    c ∈ s.scheme ∨ c ∈ s.netloc ∨ c ∈ s.path ∨ c ∈ s.query ∨ c ∈ s.fragment ∨
      c = ':' ∨ c = '/' ∨ c = '#' ∨ c = '?' := by
  simp only [urlunsplit] at h
  have h3 := mem_if_append_tail _ s.fragment _ '#' c h
  rcases h3 with hf | hf | hf
  · tauto
  · tauto
  · have h4 := mem_if_append_tail _ s.query _ '?' c hf
    rcases h4 with hq | hq | hq
    · tauto
    · tauto
    · have h5 := mem_if_append_cons _ s.scheme _ ':' c hq
      rcases h5 with hs | hs | hs
      · tauto
      · tauto
      · have h6 := mem_netloc_stage _ _ s.netloc s.path c hs
        tauto

/-- Every character of an unparsed url is a component character or one of
the inserted separators. -/
theorem urlunparse_mem (p : ParseResult) (c : Char) (h : c ∈ urlunparse p) :
    c ∈ p.scheme ∨ c ∈ p.netloc ∨ c ∈ p.path ∨ c ∈ p.params ∨ c ∈ p.query ∨
      c ∈ p.fragment ∨ c = ':' ∨ c = '/' ∨ c = '#' ∨ c = '?' ∨ c = ';' := by
  simp only [urlunparse] at h
  have h2 := urlunsplit_mem _ c h
  simp only at h2
  rcases h2 with h2 | h2 | h2 | h2 | h2 | h2
  · tauto
  · tauto
  · by_cases hne : p.params = []
    · rw [if_neg (by simp [hne])] at h2
      tauto
    · rw [if_pos (by simpa using hne)] at h2
      rcases List.mem_append.mp h2 with h3 | h3
      · tauto
      · rcases List.mem_cons.mp h3 with h4 | h4 <;> tauto
  · tauto
  · tauto
  · tauto

/-- Running urlsplit on a clean url whose post-scheme remainder starts
with the double slash: the netloc is carved out up to the first delimiter
and the bracket checks pass. -/
theorem urlsplitE_run_netloc (url0 scheme netloc tail : List Char)
    (hstrip : ∀ c, url0.head? = some c → isC0OrSpace c = false)
    (hsafe : ∀ c ∈ url0, isUnsafeURLByte c = false)
    (hscheme : splitScheme url0 = (scheme, '/' :: '/' :: (netloc ++ tail)))
    (hnet : ∀ c ∈ netloc, isNetlocDelim c = false)
    (htail : ∀ c, tail.head? = some c → isNetlocDelim c = true)
    (hbr : ¬ (('[' ∈ netloc ∧ ']' ∉ netloc) ∨ (']' ∈ netloc ∧ '[' ∉ netloc)))
    (hbh : ('[' ∈ netloc ∧ ']' ∈ netloc) → bracketedHostOK (bracketedHostOf netloc) = true) :
    urlsplitE url0 = .ok (splitFragQuery scheme netloc tail) := by
  simp only [urlsplitE]
  rw [dropWhile_eq_self_of_head _ _ hstrip]
  rw [List.filter_eq_self.mpr (fun a ha => by simp [hsafe a ha])]
  rw [hscheme]
  rw [if_pos (show List.take 2 ('/' :: '/' :: (netloc ++ tail)) = ['/', '/'] from rfl)]
  simp only [List.drop_succ_cons, List.drop_zero]
  rw [takeWhile_append_block _ netloc tail (fun c hc => by simp [hnet c hc])
    (fun c hc => by simp [htail c hc])]
  rw [dropWhile_append_block _ netloc tail (fun c hc => by simp [hnet c hc])
    (fun c hc => by simp [htail c hc])]
  rw [if_neg hbr]
  by_cases hb : '[' ∈ netloc ∧ ']' ∈ netloc
  · rw [if_pos hb, if_pos (hbh hb)]
  · rw [if_neg hb]

/-- Running urlsplit on a clean url whose post-scheme remainder does not
start with the double slash: no netloc is carved out. -/
theorem urlsplitE_run_plain (url0 scheme rest : List Char)
    (hstrip : ∀ c, url0.head? = some c → isC0OrSpace c = false)
    (hsafe : ∀ c ∈ url0, isUnsafeURLByte c = false)
    (hscheme : splitScheme url0 = (scheme, rest))
    (hnn : rest.take 2 ≠ ['/', '/']) :
    urlsplitE url0 = .ok (splitFragQuery scheme [] rest) := by
  simp only [urlsplitE]
  rw [dropWhile_eq_self_of_head _ _ hstrip]
  rw [List.filter_eq_self.mpr (fun a ha => by simp [hsafe a ha])]
  rw [hscheme]
  simp only
  rw [if_neg hnn]

/-- Folding the optional fragment attachment into fragPart. -/
theorem append_fragPart (url : List Char) (p : ParseResult) :
    (if p.fragment ≠ [] then url ++ '#' :: p.fragment else url) =
      url ++ fragPart p := by
  unfold fragPart
  split_ifs
  · rfl
  · simp

/-- The unparse-then-split round trip: on well-formed components with an
empty query and the two shape side conditions, urlsplit of the unparsed
url returns exactly the components, the rejoined path still carrying the
params. -/
theorem urlsplitE_unparse (p : ParseResult) (hWF : WFparse p) (hq : p.query = [])
    (h1 : noSlashSlashPath p) (h2 : absolutePathIfNetlocScheme p) :
    urlsplitE (urlunparse p) =
      Except.ok ⟨p.scheme, p.netloc, paramsJoin p, [], p.fragment⟩ := by
  have hF : fragPart p = [] ∨ ∃ f, fragPart p = '#' :: f := by
    unfold fragPart
    split_ifs
    · exact Or.inr ⟨p.fragment, rfl⟩
    · exact Or.inl rfl
  have hnh : '#' ∉ paramsJoin p :=
    paramsJoin_not_mem p '#' (by decide) hWF.pathNoH hWF.paramsNoH
  have hnq : '?' ∉ paramsJoin p :=
    paramsJoin_not_mem p '?' (by decide) hWF.pathNoQ hWF.paramsNoQ
  have hsafe : ∀ c ∈ urlunparse p, isUnsafeURLByte c = false := by
    intro c hc
    rcases urlunparse_mem p c hc with h | h | h | h | h | h | h | h | h | h | h
    · exact hWF.schemeSafe c h
    · exact hWF.netlocSafe c h
    · exact hWF.pathSafe c h
    · exact hWF.paramsSafe c h
    · rw [hq] at h
      exact absurd h (List.not_mem_nil c)
    · exact hWF.fragmentSafe c h
    all_goals subst h; decide
  have hfold : (if p.params ≠ [] then p.path ++ ';' :: p.params else p.path) =
      paramsJoin p := rfl
  by_cases hnl : p.netloc ≠ [] ∨
      (p.scheme ≠ [] ∧ p.scheme ∈ usesNetloc ∧ (paramsJoin p).take 2 ≠ ['/', '/'])
  · have hslash : paramsJoin p = [] ∨ (paramsJoin p).head? = some '/' := by
      rcases hnl with hn | ⟨hs1, hs2, _⟩
      · exact hWF.netlocSlash hn
      · by_cases hn0 : p.netloc = []
        · exact h2 hn0 hs1 hs2
        · exact hWF.netlocSlash hn0
    have hinsert : ¬ (paramsJoin p ≠ [] ∧ (paramsJoin p).head? ≠ some '/') := by
      rcases hslash with h | h
      · exact fun hc => hc.1 h
      · exact fun hc => hc.2 h
    have hout : urlunparse p =
        (if p.scheme ≠ [] then
           p.scheme ++ ':' :: ('/' :: '/' :: (p.netloc ++ paramsJoin p))
         else '/' :: '/' :: (p.netloc ++ paramsJoin p)) ++ fragPart p := by
      simp only [urlunparse, urlunsplit, hfold]
      rw [if_neg hinsert, if_pos hnl, hq]
      simp only [ne_eq, not_true_eq_false, ite_false, if_false]
      rw [append_fragPart]
    have htail : ∀ c, (paramsJoin p ++ fragPart p).head? = some c →
        isNetlocDelim c = true := by
      intro c hc
      rcases hslash with hu | hu
      · rw [hu, List.nil_append] at hc
        rcases hF with hF0 | ⟨f, hFf⟩
        · rw [hF0] at hc
          exact absurd hc (by simp)
        · rw [hFf] at hc
          simp only [List.head?_cons, Option.some_inj] at hc
          subst hc
          decide
      · cases hu0 : paramsJoin p with
        | nil =>
          rw [hu0] at hu
          exact absurd hu (by simp)
        | cons x rest =>
          rw [hu0] at hu hc
          simp only [List.head?_cons, Option.some_inj] at hu
          simp only [List.cons_append, List.head?_cons, Option.some_inj] at hc
          subst hc
          subst hu
          decide
    rcases hWF.schemeShape with hs0 | ⟨c0, cs0, hsch, hal, hall, hlow⟩
    · have hout2 : urlunparse p =
          '/' :: '/' :: (p.netloc ++ (paramsJoin p ++ fragPart p)) := by
        rw [hout, if_neg (by simp [hs0])]
        simp [List.append_assoc]
      have hstrip : ∀ c, (urlunparse p).head? = some c → isC0OrSpace c = false := by
        intro c hc
        rw [hout2] at hc
        simp only [List.head?_cons, Option.some_inj] at hc
        subst hc
        decide
      have hsch_eq : splitScheme (urlunparse p) =
          ([], '/' :: '/' :: (p.netloc ++ (paramsJoin p ++ fragPart p))) := by
        rw [hout2]
        exact splitScheme_inert_head _ '/' rfl (by decide)
      rw [urlsplitE_run_netloc (urlunparse p) [] p.netloc
            (paramsJoin p ++ fragPart p) hstrip hsafe
            (by rw [hout2]; exact splitScheme_inert_head _ '/' rfl (by decide))
            hWF.netlocNoDelim htail hWF.netlocBrackets hWF.netlocHost]
      rw [splitFragQuery_recover [] p.netloc p hnh hnq, hs0]
    · have hout2 : urlunparse p =
          p.scheme ++ ':' :: ('/' :: '/' ::
            (p.netloc ++ (paramsJoin p ++ fragPart p))) := by
      
        rw [hout, if_pos (by simp [hsch])]
        simp [List.append_assoc]
      have hstrip : ∀ c, (urlunparse p).head? = some c → isC0OrSpace c = false := by
        intro c hc
        rw [hout2, hsch] at hc
        simp only [List.cons_append, List.head?_cons, Option.some_inj] at hc
        subst hc
        exact isAsciiAlpha_not_strip c0 hal
      rw [urlsplitE_run_netloc (urlunparse p) p.scheme p.netloc
            (paramsJoin p ++ fragPart p) hstrip hsafe
            (by rw [hout2]
                exact splitScheme_recover p.scheme _ c0 cs0 hsch hal hall hlow)
            hWF.netlocNoDelim htail hWF.netlocBrackets hWF.netlocHost]
      rw [splitFragQuery_recover p.scheme p.netloc p hnh hnq]
  · have hn0 : p.netloc = [] := by
      by_contra hn
      exact hnl (Or.inl hn)
    have hnn : (paramsJoin p ++ fragPart p).take 2 ≠ ['/', '/'] :=
      take_two_append_ne _ _ (h1 hn0) hF
    rcases hWF.schemeShape with hs0 | ⟨c0, cs0, hsch, hal, hall, hlow⟩
    · have hout2 : urlunparse p = paramsJoin p ++ fragPart p := by
        simp only [urlunparse, urlunsplit, hfold]
        rw [if_neg hnl, hq]
        simp only [ne_eq, not_true_eq_false, ite_false, if_false]
        rw [append_fragPart]
        rw [if_neg (show ¬ ¬ p.scheme = [] by simp [hs0])]
      have hstrip : ∀ c, (urlunparse p).head? = some c → isC0OrSpace c = false := by
        intro c hc
        rw [hout2] at hc
        cases hu0 : paramsJoin p with
        | nil =>
          rw [hu0, List.nil_append] at hc
          rcases hF with hF0 | ⟨f, hFf⟩
          · rw [hF0] at hc
            exact absurd hc (by simp)
          · rw [hFf] at hc
            simp only [List.head?_cons, Option.some_inj] at hc
            subst hc
            decide
        | cons x rest =>
          rw [hu0] at hc
          simp only [List.cons_append, List.head?_cons, Option.some_inj] at hc
          subst hc
          exact hWF.nakedHead hs0 hn0 x (by rw [hu0]; rfl)
      rw [urlsplitE_run_plain (urlunparse p) [] (paramsJoin p ++ fragPart p)
            hstrip hsafe (by rw [hout2]; exact hWF.nakedNoScheme hs0 hn0) hnn]
      rw [splitFragQuery_recover [] [] p hnh hnq, hs0, hn0]
    · have hout2 : urlunparse p =
          p.scheme ++ ':' :: (paramsJoin p ++ fragPart p) := by
        simp only [urlunparse, urlunsplit, hfold]
        rw [if_neg hnl, hq]
        simp only [ne_eq, not_true_eq_false, ite_false, if_false]
        rw [append_fragPart]
        rw [if_pos (show ¬ p.scheme = [] by simp [hsch])]
        simp [List.append_assoc]
      have hstrip : ∀ c, (urlunparse p).head? = some c → isC0OrSpace c = false := by
        intro c hc
        rw [hout2, hsch] at hc
        simp only [List.cons_append, List.head?_cons, Option.some_inj] at hc
        subst hc
        exact isAsciiAlpha_not_strip c0 hal
      rw [urlsplitE_run_plain (urlunparse p) p.scheme (paramsJoin p ++ fragPart p)
            hstrip hsafe
            (by rw [hout2]
                exact splitScheme_recover p.scheme _ c0 cs0 hsch hal hall hlow)
            hnn]
      rw [splitFragQuery_recover p.scheme [] p hnh hnq, hn0]

/-- The unparse-then-parse round trip: urlparse of the unparsed
components returns the components exactly. -/
theorem urlparseE_unparse (p : ParseResult) (hWF : WFparse p) (hq : p.query = [])
    (h1 : noSlashSlashPath p) (h2 : absolutePathIfNetlocScheme p) :
    urlparseE (urlunparse p) = Except.ok p := by
  unfold urlparseE
  rw [urlsplitE_unparse p hWF hq h1 h2]
  have hpe := hWF.paramsEq
  simp only
  by_cases hc : p.scheme ∈ usesParams ∧ ';' ∈ paramsJoin p
  · rw [if_pos hc] at hpe
    rw [if_pos hc, hpe]
    simp only [Except.ok.injEq]
    obtain ⟨ps, pn, pp2, pr, pq2, pf⟩ := p
    simp only at hq
    subst hq
    rfl
  · rw [if_neg hc] at hpe
    rw [if_neg hc]
    rw [Prod.mk.injEq] at hpe
    obtain ⟨hpath, hparams⟩ := hpe
    simp only [Except.ok.injEq]
    obtain ⟨ps, pn, pp2, pr, pq2, pf⟩ := p
    simp only at hq hpath hparams ⊢
    subst hq
    rw [hpath, ← hparams]

/-- A character in the stripped class is never one of the three removed
bytes. -/
theorem stripCoversRemoved (c : Char) (h : isC0OrSpace c = false) :
    isUnsafeURLByte c = false := by
  unfold isC0OrSpace at h
  simp only [decide_eq_false_iff_not, not_le] at h
  unfold isUnsafeURLByte
  have h9 : c ≠ '\t' := by intro he; subst he; revert h; decide
  have h13 : c ≠ '\r' := by intro he; subst he; revert h; decide
  have h10 : c ≠ '\n' := by intro he; subst he; revert h; decide
  simp [h9, h13, h10]

/-- Inversion of a successful scheme split. -/
theorem splitScheme_inv (l sch rest : List Char) (h : splitScheme l = (sch, rest))
    (hne : sch ≠ []) :
    ∃ c cs, l = (c :: cs) ++ ':' :: rest ∧ isAsciiAlpha c = true ∧
      (c :: cs).all isSchemeChar = true ∧ sch = (c :: cs).map lowerChar := by
  unfold splitScheme at h
  rcases hs : splitOnFirst ':' l with ⟨pre, o⟩
  rw [hs] at h
  cases o with
  | none =>
    injection h with h1 h2
    exact absurd h1.symm hne
  | some post =>
    cases pre with
    | nil =>
      injection h with h1 h2
      exact absurd h1.symm hne
    | cons c cs =>
      simp only at h
      by_cases hcond : (isAsciiAlpha c && (c :: cs).all isSchemeChar) = true
      · rw [if_pos hcond] at h
        injection h with h1 h2
        rw [Bool.and_eq_true] at hcond
        obtain ⟨hdec, _⟩ := splitOnFirst_sound ':' l (c :: cs) post hs
        subst h2
        exact ⟨c, cs, hdec, hcond.1, hcond.2, h1.symm⟩
      · rw [if_neg hcond] at h
        injection h with h1 h2
        exact absurd h1.symm hne

/-- Inversion of the fragment and query splits: the path is a prefix of
the input free of hash and question marks, and the fragment characters
come from the input. -/
theorem splitFragQuery_inv (scheme netloc u : List Char) :
    ∃ t, u = (splitFragQuery scheme netloc u).path ++ t ∧
      '#' ∉ (splitFragQuery scheme netloc u).path ∧
      '?' ∉ (splitFragQuery scheme netloc u).path ∧
      (∀ c ∈ (splitFragQuery scheme netloc u).fragment, c ∈ u) ∧
      (splitFragQuery scheme netloc u).scheme = scheme ∧
      (splitFragQuery scheme netloc u).netloc = netloc := by
  unfold splitFragQuery
  rcases h1 : splitOnFirst '#' u with ⟨a1, o1⟩
  cases o1 with
  | none =>
    obtain ⟨ha1, hnm1⟩ := splitOnFirst_none_sound '#' u a1 h1
    simp only [h1]
    rcases h2 : splitOnFirst '?' u with ⟨a2, o2⟩
    cases o2 with
    | none =>
      obtain ⟨ha2, hnm2⟩ := splitOnFirst_none_sound '?' u a2 h2
      simp only [h2]
      exact ⟨[], by simp, hnm1, hnm2, by simp, trivial, trivial⟩
    | some q =>
      obtain ⟨hdec2, hnm2⟩ := splitOnFirst_sound '?' u a2 q h2
      simp only [h2]
      refine ⟨'?' :: q, hdec2, ?_, hnm2, by simp, trivial, trivial⟩
      intro hm
      exact hnm1 (by rw [hdec2]; exact List.mem_append_left _ hm)
  | some f =>
    obtain ⟨hdec1, hnm1⟩ := splitOnFirst_sound '#' u a1 f h1
    simp only [h1]
    rcases h2 : splitOnFirst '?' a1 with ⟨a2, o2⟩
    cases o2 with
    | none =>
      obtain ⟨ha2, hnm2⟩ := splitOnFirst_none_sound '?' a1 a2 h2
      simp only [h2]
      refine ⟨'#' :: f, hdec1, hnm1, hnm2, ?_, trivial, trivial⟩
      intro c hc
      rw [hdec1]
      exact List.mem_append_right _ (List.mem_cons_of_mem '#' hc)
    | some q =>
      obtain ⟨hdec2, hnm2⟩ := splitOnFirst_sound '?' a1 a2 q h2
      simp only [h2]
      refine ⟨'?' :: q ++ '#' :: f, ?_, ?_, hnm2, ?_, trivial, trivial⟩
      · rw [hdec1, hdec2]
        simp
      · intro hm
        exact hnm1 (by rw [hdec2]; exact List.mem_append_left _ hm)
      · intro c hc
        rw [hdec1]
        exact List.mem_append_right _ (List.mem_cons_of_mem '#' hc)

/-- Branch-level inversion of splitparams. -/
theorem splitparams_inv (l a b : List Char) (h : splitparams l = (a, b)) :
    (a = l ∧ b = []) ∨
    ('/' ∉ l ∧ l = a ++ ';' :: b ∧ ';' ∉ a) ∨
    (∃ A p1, a = A ++ '/' :: p1 ∧ l = a ++ ';' :: b ∧ '/' ∉ p1 ∧ ';' ∉ p1 ∧
      '/' ∉ b) := by
  unfold splitparams at h
  rcases h1 : splitOnFirst '/' l.reverse with ⟨revAfter, o1⟩
  rw [h1] at h
  cases o1 with
  | none =>
    obtain ⟨hra, hnm⟩ := splitOnFirst_none_sound '/' l.reverse revAfter h1
    rcases h2 : splitOnFirst ';' l with ⟨p1, o2⟩
    rw [h2] at h
    cases o2 with
    | none =>
      injection h with ha hb
      exact Or.inl ⟨ha.symm, hb.symm⟩
    | some p2 =>
      injection h with ha hb
      obtain ⟨hdec, hnm2⟩ := splitOnFirst_sound ';' l p1 p2 h2
      subst ha
      subst hb
      exact Or.inr (Or.inl ⟨by simpa using hnm, hdec, hnm2⟩)
  | some revBefore =>
    simp only at h
    obtain ⟨hdec1, hnm1⟩ := splitOnFirst_sound '/' l.reverse revAfter revBefore h1
    rcases h2 : splitOnFirst ';' revAfter.reverse with ⟨p1, o2⟩
    rw [h2] at h
    cases o2 with
    | none =>
      injection h with ha hb
      exact Or.inl ⟨ha.symm, hb.symm⟩
    | some p2 =>
      injection h with ha hb
      obtain ⟨hdec2, hnm2⟩ := splitOnFirst_sound ';' revAfter.reverse p1 p2 h2
      subst ha
      subst hb
      have hl : l = revBefore.reverse ++ '/' :: revAfter.reverse := by
        have hx := congrArg List.reverse hdec1
        simpa using hx
      refine Or.inr (Or.inr ⟨revBefore.reverse, p1, rfl, ?_, ?_, ?_, ?_⟩)
      · rw [hl, hdec2]
        simp
      · intro hm
        have : '/' ∈ revAfter.reverse := by
          rw [hdec2]
          exact List.mem_append_left _ hm
        exact hnm1 (by simpa using this)
      · exact hnm2
      · intro hm
        have : '/' ∈ revAfter.reverse := by
          rw [hdec2]
          exact List.mem_append_right _ (List.mem_cons_of_mem ';' hm)
        exact hnm1 (by simpa using this)

/-- A netloc delimiter other than the two split markers is the slash. -/
theorem isNetlocDelim_cases (c : Char) (h : isNetlocDelim c = true)
    (hq : c ≠ '?') (hh : c ≠ '#') : c = '/' := by
  unfold isNetlocDelim at h
  simp only [Bool.or_eq_true, decide_eq_true_eq] at h
  rcases h with (h | h) | h
  · exact h
  · exact absurd h hq
  · exact absurd h hh

/-- The head of a list seen through a prefix decomposition. -/
theorem head_of_decomp (l P t : List Char) (h : l = P ++ t) (hne : P ≠ []) :
    l.head? = P.head? := by
  cases P with
  | nil => exact absurd rfl hne
  | cons x r => simp [h]

/-- Inversion of a successful urlsplit: the scheme split happened on the
cleansed url, and the result came from one of the two netloc branches
with its checks passed. -/
theorem urlsplitE_inv (url : List Char) (s : SplitResult)
    (h : urlsplitE url = .ok s) :
    ∃ scheme url3,
      splitScheme ((url.dropWhile isC0OrSpace).filter
          (fun c => !isUnsafeURLByte c)) = (scheme, url3) ∧
      ((url3.take 2 = ['/', '/'] ∧
        s = splitFragQuery scheme
              ((url3.drop 2).takeWhile (fun c => !isNetlocDelim c))
              ((url3.drop 2).dropWhile (fun c => !isNetlocDelim c)) ∧
        ¬ (('[' ∈ (url3.drop 2).takeWhile (fun c => !isNetlocDelim c) ∧
              ']' ∉ (url3.drop 2).takeWhile (fun c => !isNetlocDelim c)) ∨
           (']' ∈ (url3.drop 2).takeWhile (fun c => !isNetlocDelim c) ∧
              '[' ∉ (url3.drop 2).takeWhile (fun c => !isNetlocDelim c))) ∧
        (('[' ∈ (url3.drop 2).takeWhile (fun c => !isNetlocDelim c) ∧
            ']' ∈ (url3.drop 2).takeWhile (fun c => !isNetlocDelim c)) →
          bracketedHostOK (bracketedHostOf
            ((url3.drop 2).takeWhile (fun c => !isNetlocDelim c))) = true)) ∨
       (url3.take 2 ≠ ['/', '/'] ∧ s = splitFragQuery scheme [] url3)) := by
  simp only [urlsplitE] at h
  rcases hsp : splitScheme ((url.dropWhile isC0OrSpace).filter
      (fun c => !isUnsafeURLByte c)) with ⟨sch, url3⟩
  rw [hsp] at h
  simp only at h
  refine ⟨sch, url3, rfl, ?_⟩
  by_cases ht : url3.take 2 = ['/', '/']
  · rw [if_pos ht] at h
    by_cases hbr : ('[' ∈ (url3.drop 2).takeWhile (fun c => !isNetlocDelim c) ∧
          ']' ∉ (url3.drop 2).takeWhile (fun c => !isNetlocDelim c)) ∨
        (']' ∈ (url3.drop 2).takeWhile (fun c => !isNetlocDelim c) ∧
          '[' ∉ (url3.drop 2).takeWhile (fun c => !isNetlocDelim c))
    · rw [if_pos hbr] at h
      exact absurd h (by simp)
    · rw [if_neg hbr] at h
      by_cases hbb : '[' ∈ (url3.drop 2).takeWhile (fun c => !isNetlocDelim c) ∧
          ']' ∈ (url3.drop 2).takeWhile (fun c => !isNetlocDelim c)
      · rw [if_pos hbb] at h
        by_cases hok : bracketedHostOK (bracketedHostOf
            ((url3.drop 2).takeWhile (fun c => !isNetlocDelim c))) = true
        · rw [if_pos hok] at h
          injection h with h
          exact Or.inl ⟨ht, h.symm, hbr, fun _ => hok⟩
        · rw [if_neg hok] at h
          exact absurd h (by simp)
      · rw [if_neg hbb] at h
        injection h with h
        exact Or.inl ⟨ht, h.symm, hbr, fun hx => absurd hx hbb⟩
  · rw [if_neg ht] at h
    injection h with h
    exact Or.inr ⟨ht, h.symm⟩

/-- Lowering a lowered list is the identity. -/
theorem map_lowerChar_idem (l : List Char) :
    (l.map lowerChar).map lowerChar = l.map lowerChar := by
  induction l with
  | nil => rfl
  | cons c rest ih => simp [lowerChar_idem, ih]

/-- All structural invariants of a successful urlsplit result. -/
theorem urlsplitE_facts (url : List Char) (s : SplitResult)
    (hs : urlsplitE url = .ok s) :
    (∀ c ∈ s.scheme, isUnsafeURLByte c = false) ∧
    (∀ c ∈ s.netloc, isUnsafeURLByte c = false) ∧
    (∀ c ∈ s.path, isUnsafeURLByte c = false) ∧
    (∀ c ∈ s.fragment, isUnsafeURLByte c = false) ∧
    (s.scheme = [] ∨ ∃ c cs, s.scheme = c :: cs ∧ isAsciiAlpha c = true ∧
        s.scheme.all isSchemeChar = true ∧ s.scheme.map lowerChar = s.scheme) ∧
    (∀ c ∈ s.netloc, isNetlocDelim c = false) ∧
    (¬ (('[' ∈ s.netloc ∧ ']' ∉ s.netloc) ∨ (']' ∈ s.netloc ∧ '[' ∉ s.netloc))) ∧
    (('[' ∈ s.netloc ∧ ']' ∈ s.netloc) →
        bracketedHostOK (bracketedHostOf s.netloc) = true) ∧
    ('?' ∉ s.path) ∧ ('#' ∉ s.path) ∧
    (s.path = [] ∨ s.path.head? = some '/' ∨ (s.netloc = [] ∧ s.scheme ≠ []) ∨
        (s.netloc = [] ∧ ∀ c, s.path.head? = some c → isC0OrSpace c = false)) ∧
    (s.scheme = [] → s.netloc = [] → ∀ P t2, s.path = P ++ t2 →
        ∀ F, (F = [] ∨ ∃ f, F = '#' :: f) →
        splitScheme (P ++ F) = ([], P ++ F)) ∧
    (s.scheme = [] → s.netloc = [] → ∀ c, s.path.head? = some c →
        isC0OrSpace c = false) := by
  obtain ⟨sch, url3, hsp, hbranch⟩ := urlsplitE_inv url s hs
  have hsafe2 : ∀ c ∈ (url.dropWhile isC0OrSpace).filter
      (fun c => !isUnsafeURLByte c), isUnsafeURLByte c = false := by
    intro c hc
    have hx := List.of_mem_filter hc
    simpa using hx
  have hhead2 : ∀ c, ((url.dropWhile isC0OrSpace).filter
      (fun c => !isUnsafeURLByte c)).head? = some c → isC0OrSpace c = false := by
    intro c hc
    cases hu1 : url.dropWhile isC0OrSpace with
    | nil =>
      rw [hu1] at hc
      exact absurd hc (by simp)
    | cons x r =>
      have hx : isC0OrSpace x = false :=
        head_dropWhile_false isC0OrSpace url x (by rw [hu1]; rfl)
      rw [hu1, List.filter_cons_of_pos (by simp [stripCoversRemoved x hx])] at hc
      simp only [List.head?_cons, Option.some_inj] at hc
      subst hc
      exact hx
  have hscheme2 : sch = [] ∨ ∃ c cs, sch = c :: cs ∧ isAsciiAlpha c = true ∧
      sch.all isSchemeChar = true ∧ sch.map lowerChar = sch := by
    by_cases h0 : sch = []
    · exact Or.inl h0
    · obtain ⟨c, cs, hdec, hal, hall, hmap⟩ := splitScheme_inv _ sch url3 hsp h0
      right
      refine ⟨lowerChar c, cs.map lowerChar, by rw [hmap]; rfl,
        isAsciiAlpha_lowerChar c hal, ?_, ?_⟩
      · rw [hmap, List.all_eq_true]
        intro x hx
        rw [List.mem_map] at hx
        obtain ⟨y, hy, rfl⟩ := hx
        exact isSchemeChar_lowerChar y (List.all_eq_true.mp hall y hy)
      · rw [hmap]
        exact map_lowerChar_idem (c :: cs)
  have hurl3eq : sch = [] → url3 = (url.dropWhile isC0OrSpace).filter
      (fun c => !isUnsafeURLByte c) := by
    intro h0
    rw [h0] at hsp
    exact splitScheme_empty_inert _ url3 hsp
  have hmem3 : ∀ c ∈ url3, c ∈ (url.dropWhile isC0OrSpace).filter
      (fun c => !isUnsafeURLByte c) := by
    by_cases h0 : sch = []
    · rw [hurl3eq h0]
      exact fun c hc => hc
    · obtain ⟨c, cs, hdec, _, _, _⟩ := splitScheme_inv _ sch url3 hsp h0
      intro x hx
      rw [hdec]
      exact List.mem_append_right _ (List.mem_cons_of_mem ':' hx)
  have hsafe3 : ∀ c ∈ url3, isUnsafeURLByte c = false :=
    fun c hc => hsafe2 c (hmem3 c hc)
  have hschemesafe : ∀ c ∈ sch, isUnsafeURLByte c = false := by
    rcases hscheme2 with h0 | ⟨c0, cs0, hdec, hal, hall, hmap⟩
    · rw [h0]
      intro c hc
      exact absurd hc (List.not_mem_nil c)
    · intro c hc
      exact (isSchemeChar_facts c (List.all_eq_true.mp hall c hc)).2.1
  rcases hbranch with ⟨ht, hseq, hbr, hbh⟩ | ⟨ht, hseq⟩
  · -- double-slash branch
    obtain ⟨t, hpdec, hpnh, hpnq, hfmem, hssch, hsnet⟩ :=
      splitFragQuery_inv sch ((url3.drop 2).takeWhile (fun c => !isNetlocDelim c))
        ((url3.drop 2).dropWhile (fun c => !isNetlocDelim c))
    rw [← hseq] at hpdec hpnh hpnq hfmem hssch hsnet
    have hmemnet : ∀ c ∈ s.netloc, c ∈ url3 := by
      rw [hsnet]
      intro c hc
      exact (List.drop_sublist 2 url3).subset
        ((List.takeWhile_sublist _).subset hc)
    have hnetnodelim : ∀ c ∈ s.netloc, isNetlocDelim c = false := by
      rw [hsnet]
      intro c hc
      have hx := List.mem_takeWhile_imp hc
      simpa using hx
    have hmem4 : ∀ c ∈ (url3.drop 2).dropWhile (fun c => !isNetlocDelim c),
        c ∈ url3 := by
      intro c hc
      exact (List.drop_sublist 2 url3).subset
        ((List.dropWhile_sublist _).subset hc)
    have hmempath : ∀ c ∈ s.path, c ∈ url3 := by
      intro c hc
      exact hmem4 c (by rw [hpdec]; exact List.mem_append_left _ hc)
    have hslash : s.path = [] ∨ s.path.head? = some '/' := by
      cases hp0 : s.path with
      | nil => exact Or.inl rfl
      | cons x r =>
        right
        have hh : s.path.head? = ((url3.drop 2).dropWhile
            (fun c => !isNetlocDelim c)).head? := (head_of_decomp _ _ _ hpdec (by rw [hp0]; simp)).symm
        have hx : s.path.head? = some x := by rw [hp0]; rfl
        have hdel : isNetlocDelim x = true := by
          have := head_dropWhile_false (fun c => !isNetlocDelim c) (url3.drop 2) x
            (by rw [← hh, hx])
          simpa using this
        have hxmem : x ∈ s.path := by rw [hp0]; exact List.mem_cons_self x r
        have hxq : x ≠ '?' := fun he => hpnq (he ▸ hxmem)
        have hxh : x ≠ '#' := fun he => hpnh (he ▸ hxmem)
        simp only [List.head?_cons, Option.some_inj]
        exact isNetlocDelim_cases x hdel hxq hxh
    refine ⟨by rw [hssch]; exact hschemesafe,
      fun c hc => hsafe3 c (hmemnet c hc),
      fun c hc => hsafe3 c (hmempath c hc),
      fun c hc => hsafe3 c (hmem4 c (hfmem c hc)),
      by rw [hssch]; exact hscheme2,
      hnetnodelim,
      by rw [hsnet]; exact hbr,
      by rw [hsnet]; exact hbh,
      hpnq, hpnh,
      ?_, ?_, ?_⟩
    · rcases hslash with h | h
      · exact Or.inl h
      · exact Or.inr (Or.inl h)
    · intro h0 hn0 P t2 hP F hF
      rcases hslash with hp0 | hp0
      · rw [hp0] at hP
        have hPnil : P = [] := by
          cases P with
          | nil => rfl
          | cons a b => exact absurd hP.symm (by simp)
        subst hPnil
        rcases hF with rfl | ⟨f, rfl⟩
        · rfl
        · rw [List.nil_append]
          exact splitScheme_inert_head _ '#' rfl (by decide)
      · cases hP0 : P with
        | nil =>
          rcases hF with rfl | ⟨f, rfl⟩
          · rfl
          · rw [List.nil_append]
            exact splitScheme_inert_head _ '#' rfl (by decide)
        | cons x P2 =>
          rw [hP0] at hP
          have hhx : s.path.head? = some x := by
            rw [head_of_decomp s.path (x :: P2) t2 hP (by simp)]
            rfl
          have hx : x = '/' := by
            rw [hhx] at hp0
            exact Option.some_inj.mp hp0
          apply splitScheme_inert_head _ x
          · simp
          · rw [hx]
            decide
    · intro h0 hn0 c hc
      rcases hslash with hp0 | hp0
      · rw [hp0] at hc
        exact absurd hc (by simp)
      · rw [hc] at hp0
        rw [Option.some_inj.mp hp0]
        decide
  · -- plain branch
    obtain ⟨t, hpdec, hpnh, hpnq, hfmem, hssch, hsnet⟩ :=
      splitFragQuery_inv sch [] url3
    rw [← hseq] at hpdec hpnh hpnq hfmem hssch hsnet
    have hmempath : ∀ c ∈ s.path, c ∈ url3 := by
      intro c hc
      rw [hpdec]
      exact List.mem_append_left _ hc
    refine ⟨by rw [hssch]; exact hschemesafe,
      by rw [hsnet]; intro c hc; exact absurd hc (List.not_mem_nil c),
      fun c hc => hsafe3 c (hmempath c hc),
      fun c hc => hsafe3 c (hfmem c hc),
      by rw [hssch]; exact hscheme2,
      by rw [hsnet]; intro c hc; exact absurd hc (List.not_mem_nil c),
      by rw [hsnet]; simp,
      by rw [hsnet]; simp,
      hpnq, hpnh,
      ?_, ?_, ?_⟩
    · by_cases h0 : sch = []
      · right; right; right
        refine ⟨hsnet, ?_⟩
        intro c hc
        have hu3 : url3 = (url.dropWhile isC0OrSpace).filter
            (fun c => !isUnsafeURLByte c) := hurl3eq h0
        apply hhead2
        rw [← hu3, head_of_decomp url3 s.path t hpdec]
        · exact hc
        · intro hp0
          rw [hp0] at hc
          exact absurd hc (by simp)
      · right; right; left
        exact ⟨hsnet, by rw [hssch]; exact h0⟩
    · intro h0 hn0 P t2 hP F hF
      rw [hssch] at h0
      have hu3 : url3 = (url.dropWhile isC0OrSpace).filter
          (fun c => !isUnsafeURLByte c) := hurl3eq h0
      have hsx : splitScheme (P ++ (t2 ++ t)) = ([], P ++ (t2 ++ t)) := by
        have hx : P ++ (t2 ++ t) = url3 := by
          rw [hpdec, hP]
          simp
      
        rw [hx, hu3]
        rw [h0] at hsp
        rw [hu3] at hsp  -- careful
        exact hsp
      exact splitScheme_no_detect_extend P (t2 ++ t) F hsx hF
    · intro h0 hn0 c hc
      rw [hssch] at h0
      have hu3 : url3 = (url.dropWhile isC0OrSpace).filter
          (fun c => !isUnsafeURLByte c) := hurl3eq h0
      apply hhead2
      rw [← hu3, head_of_decomp url3 s.path t hpdec]
      · exact hc
      · intro hp0
        rw [hp0] at hc
        exact absurd hc (by simp)

/-- Building the parse-level invariants from the split-level facts and
the params separation equation. -/
theorem WF_build (sscheme snetloc spath sfrag pp pr : List Char)
    (f1 : ∀ c ∈ sscheme, isUnsafeURLByte c = false)
    (f2 : ∀ c ∈ snetloc, isUnsafeURLByte c = false)
    (f3 : ∀ c ∈ spath, isUnsafeURLByte c = false)
    (f4 : ∀ c ∈ sfrag, isUnsafeURLByte c = false)
    (f5 : sscheme = [] ∨ ∃ c cs, sscheme = c :: cs ∧ isAsciiAlpha c = true ∧
        sscheme.all isSchemeChar = true ∧ sscheme.map lowerChar = sscheme)
    (f6 : ∀ c ∈ snetloc, isNetlocDelim c = false)
    (f7 : ¬ (('[' ∈ snetloc ∧ ']' ∉ snetloc) ∨ (']' ∈ snetloc ∧ '[' ∉ snetloc)))
    (f8 : ('[' ∈ snetloc ∧ ']' ∈ snetloc) →
        bracketedHostOK (bracketedHostOf snetloc) = true)
    (f9 : '?' ∉ spath) (f10 : '#' ∉ spath)
    (f11 : spath = [] ∨ spath.head? = some '/' ∨ (snetloc = [] ∧ sscheme ≠ []) ∨
        (snetloc = [] ∧ ∀ c, spath.head? = some c → isC0OrSpace c = false))
    (f12 : sscheme = [] → snetloc = [] → ∀ P t2, spath = P ++ t2 →
        ∀ F, (F = [] ∨ ∃ f, F = '#' :: f) →
        splitScheme (P ++ F) = ([], P ++ F))
    (f13 : sscheme = [] → snetloc = [] → ∀ c, spath.head? = some c →
        isC0OrSpace c = false)
    (hlink : (if sscheme ∈ usesParams ∧ ';' ∈ spath then splitparams spath
        else (spath, [])) = (pp, pr)) :
    WFparse ⟨sscheme, snetloc, pp, pr, [], sfrag⟩ := by
  have hJdef : paramsJoin ⟨sscheme, snetloc, pp, pr, [], sfrag⟩ =
      (if pr ≠ [] then pp ++ ';' :: pr else pp) := rfl
  have hppmem : ∀ c ∈ pp, c ∈ spath := by
    by_cases hcu : sscheme ∈ usesParams ∧ ';' ∈ spath
    · rw [if_pos hcu] at hlink
      rcases splitparams_inv spath pp pr hlink with ⟨ha, _⟩ | ⟨_, hd, _⟩ |
        ⟨A, p1, _, hd, _, _, _⟩
      · rw [ha]
        exact fun c hx => hx
      · rw [hd]
        exact fun c hx => List.mem_append_left _ hx
      · rw [hd]
        exact fun c hx => List.mem_append_left _ hx
    · rw [if_neg hcu] at hlink
      injection hlink with ha hb
      rw [← ha]
      exact fun c hx => hx
  have hprmem : ∀ c ∈ pr, c ∈ spath := by
    by_cases hcu : sscheme ∈ usesParams ∧ ';' ∈ spath
    · rw [if_pos hcu] at hlink
      rcases splitparams_inv spath pp pr hlink with ⟨_, hb⟩ | ⟨_, hd, _⟩ |
        ⟨A, p1, _, hd, _, _, _⟩
      · rw [hb]
        exact fun c hx => absurd hx (List.not_mem_nil c)
      · rw [hd]
        exact fun c hx => List.mem_append_right _ (List.mem_cons_of_mem ';' hx)
      · rw [hd]
        exact fun c hx => List.mem_append_right _ (List.mem_cons_of_mem ';' hx)
    · rw [if_neg hcu] at hlink
      injection hlink with ha hb
      rw [← hb]
      exact fun c hx => absurd hx (List.not_mem_nil c)
  have hJdec : ∃ tj, spath = (if pr ≠ [] then pp ++ ';' :: pr else pp) ++ tj := by
    by_cases hcu : sscheme ∈ usesParams ∧ ';' ∈ spath
    · rw [if_pos hcu] at hlink
      by_cases hpr : pr = []
      · rw [if_neg (by simp [hpr])]
        rcases splitparams_inv spath pp pr hlink with ⟨ha, _⟩ | ⟨_, hd, _⟩ |
          ⟨A, p1, _, hd, _, _, _⟩
        · exact ⟨[], by rw [ha]; simp⟩
        · exact ⟨';' :: pr, hd⟩
        · exact ⟨';' :: pr, hd⟩
      · rw [if_pos (by simpa using hpr)]
        rcases splitparams_inv spath pp pr hlink with ⟨_, hb⟩ | ⟨_, hd, _⟩ |
          ⟨A, p1, _, hd, _, _, _⟩
        · exact absurd hb hpr
        · exact ⟨[], by rw [hd]; simp⟩
        · exact ⟨[], by rw [hd]; simp⟩
    · rw [if_neg hcu] at hlink
      injection hlink with ha hb
      rw [← ha, ← hb]
      simp only [ne_eq, not_true_eq_false, ite_false, if_neg]
      exact ⟨[], by simp⟩
  obtain ⟨tj, htj⟩ := hJdec
  have hparamsEq : (if sscheme ∈ usesParams ∧
      ';' ∈ (if pr ≠ [] then pp ++ ';' :: pr else pp) then
        splitparams (if pr ≠ [] then pp ++ ';' :: pr else pp)
      else ((if pr ≠ [] then pp ++ ';' :: pr else pp), [])) = (pp, pr) := by
    by_cases hpr : pr = []
    · rw [if_neg (show ¬ pr ≠ [] by simpa using hpr)]
      subst hpr
      by_cases hcu : sscheme ∈ usesParams ∧ ';' ∈ spath
      · rw [if_pos hcu] at hlink
        rcases splitparams_inv spath pp [] hlink with ⟨ha, _⟩ | ⟨_, _, hna⟩ |
          ⟨A, p1, hA, _, hp1s, hp1c, _⟩
        · by_cases hsemi : ';' ∈ pp
          · rw [if_pos ⟨hcu.1, hsemi⟩, ha]
            rw [ha] at hlink
            exact hlink
          · rw [if_neg (fun hx => hsemi hx.2)]
        · rw [if_neg (fun hx => hna hx.2)]
        · by_cases hsemi : ';' ∈ pp
          · rw [if_pos ⟨hcu.1, hsemi⟩, hA]
            exact splitparams_slash_none A p1 hp1s hp1c
          · rw [if_neg (fun hx => hsemi hx.2)]
      · rw [if_neg hcu] at hlink
        injection hlink with ha hb
        rw [if_neg]
        intro hx
        exact hcu ⟨hx.1, by rw [ha]; exact hx.2⟩
    · rw [if_pos (show pr ≠ [] by simpa using hpr)]
      have hsemi : ';' ∈ pp ++ ';' :: pr :=
        List.mem_append_right _ (List.mem_cons_self ';' pr)
      by_cases hcu : sscheme ∈ usesParams ∧ ';' ∈ spath
      · rw [if_pos hcu] at hlink
        rcases splitparams_inv spath pp pr hlink with ⟨_, hb⟩ | ⟨_, hd, _⟩ |
          ⟨A, p1, _, hd, _, _, _⟩
        · exact absurd hb hpr
        · rw [if_pos ⟨hcu.1, hsemi⟩, ← hd]
          exact hlink
        · rw [if_pos ⟨hcu.1, hsemi⟩, ← hd]
          exact hlink
      · rw [if_neg hcu] at hlink
        injection hlink with ha hb
        exact absurd hb.symm hpr
  refine ⟨f1, f2, fun c hx => f3 c (hppmem c hx), fun c hx => f3 c (hprmem c hx),
    f4, f5, f6, f7, f8,
    fun hx => f9 (hppmem '?' hx), fun hx => f10 (hppmem '#' hx),
    fun hx => f9 (hprmem '?' hx), fun hx => f10 (hprmem '#' hx),
    ?_, ?_, ?_, ?_⟩
  · intro hn
    simp only at hn
    rw [hJdef]
    rcases f11 with hp0 | hp0 | hp0 | hp0
    · left
      rw [hp0] at htj
      exact (List.append_eq_nil.mp htj.symm).1
    · by_cases hJ0 : (if pr ≠ [] then pp ++ ';' :: pr else pp) = []
      · exact Or.inl hJ0
      · right
        rw [← head_of_decomp spath _ tj htj hJ0]
        exact hp0
    · exact absurd hp0.1 hn
    · exact absurd hp0.1 hn
  · intro h0 hn0
    simp only at h0 hn0
    rw [hJdef]
    have hFsh : fragPart ⟨sscheme, snetloc, pp, pr, [], sfrag⟩ = [] ∨
        ∃ f, fragPart ⟨sscheme, snetloc, pp, pr, [], sfrag⟩ = '#' :: f := by
      unfold fragPart
      split_ifs
      · exact Or.inr ⟨sfrag, rfl⟩
      · exact Or.inl rfl
    exact f12 h0 hn0 _ tj htj _ hFsh
  · intro h0 hn0 c hcc
    simp only at h0 hn0
    rw [hJdef] at hcc
    apply f13 h0 hn0 c
    rw [head_of_decomp spath _ tj htj]
    · exact hcc
    · intro hx
      rw [hx] at hcc
      exact absurd hcc (by simp)
  · simp only
    rw [hJdef]
    exact hparamsEq

/-- Every successful urlparse yields well-formed components once the
query is erased. -/
theorem urlparseE_WF (url : List Char) (p : ParseResult)
    (h : urlparseE url = .ok p) : WFparse { p with query := [] } := by
  unfold urlparseE at h
  rcases hs : urlsplitE url with e | s
  · rw [hs] at h
    exact absurd h (by simp)
  rw [hs] at h
  simp only at h
  obtain ⟨f1, f2, f3, f4, f5, f6, f7, f8, f9, f10, f11, f12, f13⟩ :=
    urlsplitE_facts url s hs
  by_cases hc : s.scheme ∈ usesParams ∧ ';' ∈ s.path
  · rw [if_pos hc] at h
    injection h with h
    subst h
    exact WF_build s.scheme s.netloc s.path s.fragment _ _
      f1 f2 f3 f4 f5 f6 f7 f8 f9 f10 f11 f12 f13 (by rw [if_pos hc])
  · rw [if_neg hc] at h
    injection h with h
    subst h
    exact WF_build s.scheme s.netloc s.path s.fragment _ _
      f1 f2 f3 f4 f5 f6 f7 f8 f9 f10 f11 f12 f13 (by rw [if_neg hc])

/-- C7 counterexample: clean_linkedin_url does not preserve the parsed
components of every input, nor does it return one for every input. On
http:path?q the parsed path is path, but the output http:///path
re-parses with path /path (urlunsplit of CPython 3.11 re-inserts the
double slash for a uses-netloc scheme); and on http://[?q the function
raises ValueError instead of returning a url. -/
theorem clean_url_counterexample :
    urlparseE ("http:path?q".toList) =
      .ok ⟨"http".toList, [], "path".toList, [], "q".toList, []⟩ ∧
    clean_linkedin_url ("http:path?q".toList) = .ok ("http:///path".toList) ∧
    urlparseE ("http:///path".toList) =
      .ok ⟨"http".toList, [], "/path".toList, [], [], []⟩ ∧
    ("path".toList : List Char) ≠ "/path".toList ∧
    clean_linkedin_url ("http://[?q".toList) = .error "Invalid IPv6 URL" := by
  refine ⟨rfl, rfl, rfl, by decide, rfl⟩

/-- C7 as amended: whenever urlparse succeeds on the input and the parsed
components avoid the two degenerate shapes (empty netloc with a rejoined
path starting with two slashes, and empty netloc with a uses-netloc
scheme and a nonempty relative rejoined path), clean_linkedin_url returns
the unparsed query-free components; re-parsing its output yields exactly
the original scheme, netloc, path, params and fragment with an empty
query; and normalizing is idempotent on such inputs. -/
theorem clean_url_normalizes (url : List Char) (p : ParseResult)
    (hp : urlparseE url = .ok p)
    (h1 : noSlashSlashPath p) (h2 : absolutePathIfNetlocScheme p) :
    clean_linkedin_url url = .ok (urlunparse { p with query := [] }) ∧
    urlparseE (urlunparse { p with query := [] }) =
      .ok { p with query := [] } ∧
    clean_linkedin_url (urlunparse { p with query := [] }) =
      .ok (urlunparse { p with query := [] }) := by
  have hWF : WFparse { p with query := [] } := urlparseE_WF url p hp
  have hq : ({ p with query := [] } : ParseResult).query = [] := rfl
  have h1b : noSlashSlashPath { p with query := [] } := h1
  have h2b : absolutePathIfNetlocScheme { p with query := [] } := h2
  have hrt := urlparseE_unparse { p with query := [] } hWF hq h1b h2b
  refine ⟨?_, hrt, ?_⟩
  · unfold clean_linkedin_url
    rw [hp]
  · unfold clean_linkedin_url
    rw [hrt]

/-- Witness for the amended C7 on a LinkedIn post url with a tracking
parameter. -/
theorem clean_url_normalizes_witness :
    clean_linkedin_url ("https://www.linkedin.com/posts/foo?utm=x".toList) =
      .ok (urlunparse { c7p with query := [] }) ∧
    urlparseE (urlunparse { c7p with query := [] }) =
      .ok { c7p with query := [] } ∧
    clean_linkedin_url (urlunparse { c7p with query := [] }) =
      .ok (urlunparse { c7p with query := [] }) :=
  clean_url_normalizes ("https://www.linkedin.com/posts/foo?utm=x".toList) c7p
    (by rfl) (fun hn => absurd hn (by decide)) (fun hn => absurd hn (by decide))
